import Mathlib

/-!
Verification development for the Reddit JSONL-to-HTML conversion tool
(`jsonl_to_html.py`).  Python functions are shallowly embedded as Lean
functions over `String` / `List Char` / `Int` / `Nat`; stateful code
(the media downloader) is modelled by explicit state passing.  Bounded
scanners use an explicit fuel argument seeded with the input length so
that every definition is executable by kernel reduction; fuel is always
sufficient, which is proved where a theorem needs it.
-/

set_option maxRecDepth 20000

namespace JsonlToHtml

/-! ## Basic string helpers (Python `str` operations) -/

/-- `isPrefixList pat l` : `pat` is a prefix of `l` (exact characters). -/
def isPrefixList : List Char → List Char → Bool
  | [], _ => true
  | _ :: _, [] => false
  | p :: ps, c :: cs => p == c && isPrefixList ps cs

/-- Models Python substring containment `pat in l` on character lists
(`"" in s` is `True` in Python). -/
def containsSub : List Char → List Char → Bool
  | [], pat => pat.isEmpty
  | l@(_ :: tl), pat => isPrefixList pat l || containsSub tl pat

/-- Models Python `pat in s` on strings. -/
def containsStr (s pat : String) : Bool := containsSub s.data pat.data

/-- Scanner for `pyReplace`: replaces each non-overlapping occurrence of
`pat` (nonempty) left to right.  `fuel` is seeded with the list length;
every step consumes at least one character. -/
def pyReplaceGo (pat rep : List Char) : Nat → List Char → List Char
  | 0, l => l
  | _ + 1, [] => []
  | fuel + 1, c :: tl =>
    if isPrefixList pat (c :: tl) then
      rep ++ pyReplaceGo pat rep fuel (tl.drop (pat.length - 1))
    else
      c :: pyReplaceGo pat rep fuel tl

/-- Models Python `str.replace(pat, rep)` (all occurrences, left to right,
non-overlapping; an empty pattern interleaves `rep` between characters). -/
def pyReplace (l pat rep : List Char) : List Char :=
  if pat.isEmpty then rep ++ l.foldr (fun c acc => c :: (rep ++ acc)) []
  else pyReplaceGo pat rep l.length l

/-- Models Python `str.replace` on strings. -/
def strReplace (s pat rep : String) : String := ⟨pyReplace s.data pat.data rep.data⟩

/-! ## `html.unescape` (subset) -/

def isDigitB (c : Char) : Bool := '0' ≤ c && c ≤ '9'

def hexDigitVal (c : Char) : Option Nat :=
  if '0' ≤ c ∧ c ≤ '9' then some (c.toNat - 48)
  else if 'a' ≤ c ∧ c ≤ 'f' then some (c.toNat - 87)
  else if 'A' ≤ c ∧ c ≤ 'F' then some (c.toNat - 55)
  else none

def isHexDigitB (c : Char) : Bool := (hexDigitVal c).isSome

def decValue (ds : List Char) : Nat := ds.foldl (fun a c => a * 10 + (c.toNat - 48)) 0

def hexValue (ds : List Char) : Nat := ds.foldl (fun a c => a * 16 + ((hexDigitVal c).getD 0)) 0

/-- The named entities this development models (semicolon-terminated). -/
def namedEntities : List (List Char × Char) :=
  [("amp;".data, '&'), ("lt;".data, '<'), ("gt;".data, '>'),
   ("quot;".data, '"'), ("apos;".data, '\'')]

/-- Parse one HTML character reference right after a `&`.  Returns the decoded
character and the number of characters consumed (after the `&`). -/
def parseEntity (l : List Char) : Option (Char × Nat) :=
  match l with
  | '#' :: rest =>
    match rest with
    | c :: rest2 =>
      if c = 'x' ∨ c = 'X' then
        let ds := rest2.takeWhile isHexDigitB
        if ds.isEmpty then none
        else match rest2.drop ds.length with
          | ';' :: _ =>
            let v := hexValue ds
            if v < 55296 then some (Char.ofNat v, ds.length + 3)
            else none
          | _ => none
      else
        let ds := rest.takeWhile isDigitB
        if ds.isEmpty then none
        else match rest.drop ds.length with
          | ';' :: _ =>
            let v := decValue ds
            if v < 55296 then some (Char.ofNat v, ds.length + 2)
            else none
          | _ => none
    | [] => none
  | _ =>
    match namedEntities.find? (fun p => isPrefixList p.1 l) with
    | some p => some (p.2, p.1.length)
    | none => none

/-- Scanner for `unescape`; fuel is seeded with the input length and each
step consumes at least one character. -/
def unescapeGo : Nat → List Char → List Char
  | 0, l => l
  | _ + 1, [] => []
  | fuel + 1, '&' :: rest =>
    match parseEntity rest with
    | some (c, n) => c :: unescapeGo fuel (rest.drop n)
    | none => '&' :: unescapeGo fuel rest
  | fuel + 1, c :: rest => c :: unescapeGo fuel rest

/-- Models Python `html.unescape`, restricted to semicolon-terminated numeric
character references below the surrogate range and the named entities
`amp`, `lt`, `gt`, `quot`, `apos`.  Every reference string used in the
theorems below is decoded identically by Python. -/
def unescape (s : String) : String := ⟨unescapeGo s.data.length s.data⟩

/-! ## MD5 (models Python `hashlib.md5`) -/

def M32 : Nat := 4294967296

def not32 (x : Nat) : Nat := x ^^^ 4294967295

def rotl32 (x s : Nat) : Nat := ((x <<< s) % M32) ||| (x >>> (32 - s))

/-- The 64 MD5 round constants `floor(abs(sin(i+1)) * 2^32)`. -/
def md5K : List Nat :=
  [0xd76aa478, 0xe8c7b756, 0x242070db, 0xc1bdceee,
   0xf57c0faf, 0x4787c62a, 0xa8304613, 0xfd469501,
   0x698098d8, 0x8b44f7af, 0xffff5bb1, 0x895cd7be,
   0x6b901122, 0xfd987193, 0xa679438e, 0x49b40821,
   0xf61e2562, 0xc040b340, 0x265e5a51, 0xe9b6c7aa,
   0xd62f105d, 0x02441453, 0xd8a1e681, 0xe7d3fbc8,
   0x21e1cde6, 0xc33707d6, 0xf4d50d87, 0x455a14ed,
   0xa9e3e905, 0xfcefa3f8, 0x676f02d9, 0x8d2a4c8a,
   0xfffa3942, 0x8771f681, 0x6d9d6122, 0xfde5380c,
   0xa4beea44, 0x4bdecfa9, 0xf6bb4b60, 0xbebfbc70,
   0x289b7ec6, 0xeaa127fa, 0xd4ef3085, 0x04881d05,
   0xd9d4d039, 0xe6db99e5, 0x1fa27cf8, 0xc4ac5665,
   0xf4292244, 0x432aff97, 0xab9423a7, 0xfc93a039,
   0x655b59c3, 0x8f0ccc92, 0xffeff47d, 0x85845dd1,
   0x6fa87e4f, 0xfe2ce6e0, 0xa3014314, 0x4e0811a1,
   0xf7537e82, 0xbd3af235, 0x2ad7d2bb, 0xeb86d391]

/-- The 64 MD5 per-round left-rotation amounts. -/
def md5S : List Nat :=
  [7, 12, 17, 22, 7, 12, 17, 22, 7, 12, 17, 22, 7, 12, 17, 22,
   5, 9, 14, 20, 5, 9, 14, 20, 5, 9, 14, 20, 5, 9, 14, 20,
   4, 11, 16, 23, 4, 11, 16, 23, 4, 11, 16, 23, 4, 11, 16, 23,
   6, 10, 15, 21, 6, 10, 15, 21, 6, 10, 15, 21, 6, 10, 15, 21]

/-- UTF-8 encoding of one character (models Python `str.encode()`). -/
def utf8EncodeChar (c : Char) : List Nat :=
  let n := c.toNat
  if n < 128 then [n]
  else if n < 2048 then [192 ||| (n >>> 6), 128 ||| (n &&& 63)]
  else if n < 65536 then
    [224 ||| (n >>> 12), 128 ||| ((n >>> 6) &&& 63), 128 ||| (n &&& 63)]
  else
    [240 ||| (n >>> 18), 128 ||| ((n >>> 12) &&& 63),
     128 ||| ((n >>> 6) &&& 63), 128 ||| (n &&& 63)]

def utf8Encode (l : List Char) : List Nat :=
  l.foldr (fun c acc => utf8EncodeChar c ++ acc) []

def word64ToLEBytes (w : Nat) : List Nat :=
  [w % 256, (w >>> 8) % 256, (w >>> 16) % 256, (w >>> 24) % 256,
   (w >>> 32) % 256, (w >>> 40) % 256, (w >>> 48) % 256, (w >>> 56) % 256]

def word32ToLEBytes (w : Nat) : List Nat :=
  [w % 256, (w >>> 8) % 256, (w >>> 16) % 256, (w >>> 24) % 256]

/-- MD5 padding: append `0x80`, zero bytes to 56 mod 64, then the bit length
as a 64-bit little-endian quantity. -/
def md5Pad (msg : List Nat) : List Nat :=
  let len := msg.length
  let z := (119 - len % 64) % 64
  msg ++ [128] ++ List.replicate z 0 ++ word64ToLEBytes ((8 * len) % 18446744073709551616)

/-- Little-endian 32-bit words of a chunk. -/
def toWords : List Nat → List Nat
  | b0 :: b1 :: b2 :: b3 :: rest =>
    (b0 + (b1 <<< 8) + (b2 <<< 16) + (b3 <<< 24)) :: toWords rest
  | _ => []

def md5F (i b c d : Nat) : Nat :=
  if i < 16 then (b &&& c) ||| (not32 b &&& d)
  else if i < 32 then (d &&& b) ||| (not32 d &&& c)
  else if i < 48 then b ^^^ c ^^^ d
  else c ^^^ (b ||| not32 d)

def md5G (i : Nat) : Nat :=
  if i < 16 then i
  else if i < 32 then (5 * i + 1) % 16
  else if i < 48 then (3 * i + 5) % 16
  else (7 * i) % 16

def md5Round (M : List Nat) (st : Nat × Nat × Nat × Nat) (i : Nat) : Nat × Nat × Nat × Nat :=
  let a := st.1
  let b := st.2.1
  let c := st.2.2.1
  let d := st.2.2.2
  let f := (md5F i b c d + a + md5K.getD i 0 + M.getD (md5G i) 0) % M32
  (d, (b + rotl32 f (md5S.getD i 0)) % M32, b, c)

def md5Chunk (st : Nat × Nat × Nat × Nat) (chunk : List Nat) : Nat × Nat × Nat × Nat :=
  let M := toWords chunk
  let r := (List.range 64).foldl (md5Round M) st
  ((st.1 + r.1) % M32, (st.2.1 + r.2.1) % M32,
   (st.2.2.1 + r.2.2.1) % M32, (st.2.2.2 + r.2.2.2) % M32)

/-- Process the padded message 64 bytes at a time; fuel is seeded with the
message length (each step consumes 64 bytes). -/
def md5ProcessGo : Nat → Nat × Nat × Nat × Nat → List Nat → Nat × Nat × Nat × Nat
  | 0, st, _ => st
  | _ + 1, st, [] => st
  | fuel + 1, st, l => md5ProcessGo fuel (md5Chunk st (l.take 64)) (l.drop 64)

/-- The 16 MD5 digest bytes of a byte string. -/
def md5Bytes (msg : List Nat) : List Nat :=
  let p := md5Pad msg
  let st := md5ProcessGo p.length (0x67452301, 0xefcdab89, 0x98badcfe, 0x10325476) p
  word32ToLEBytes st.1 ++ word32ToLEBytes st.2.1 ++
    word32ToLEBytes st.2.2.1 ++ word32ToLEBytes st.2.2.2

def hexDigitChar (n : Nat) : Char :=
  match n with
  | 0 => '0' | 1 => '1' | 2 => '2' | 3 => '3' | 4 => '4'
  | 5 => '5' | 6 => '6' | 7 => '7' | 8 => '8' | 9 => '9'
  | 10 => 'a' | 11 => 'b' | 12 => 'c' | 13 => 'd' | 14 => 'e'
  | _ => 'f'

def byteToHexChars (b : Nat) : List Char := [hexDigitChar (b / 16 % 16), hexDigitChar (b % 16)]

/-- Models `hashlib.md5(x.encode()).hexdigest()[:16]` (Python standard
library): the first 16 hex characters of the MD5 digest. -/
def md5hex16 (s : String) : String :=
  ⟨((md5Bytes (utf8Encode s.data)).take 8).foldr (fun b acc => byteToHexChars b ++ acc) []⟩

/-! ## URL parsing subset and `get_local_path_for_url` -/

/-- Index of the first occurrence of `pat` in `l`. -/
def findSubIdx (pat : List Char) : List Char → Option Nat
  | [] => if pat.isEmpty then some 0 else none
  | l@(_ :: tl) => if isPrefixList pat l then some 0 else (findSubIdx pat tl).map (· + 1)

/-- Models `urllib.parse.urlparse(u).path` and `.query` for URLs without a
params (`;`) component in the last path segment: everything after `scheme://`
up to the first `/`, `?` or `#` is the netloc; the path runs to the first `?`
or `#`; the query runs from `?` to `#`.  Percent-escapes are left as-is. -/
def urlPathQuery (s : List Char) : List Char × List Char :=
  let rest :=
    match findSubIdx "://".data s with
    | some i => (s.drop (i + 3)).dropWhile (fun c => c != '/' && c != '?' && c != '#')
    | none => s
  let path := rest.takeWhile (fun c => c != '?' && c != '#')
  let after := rest.drop path.length
  let query :=
    match after with
    | '?' :: q => q.takeWhile (fun c => c != '#')
    | _ => []
  (path, query)

/-- Models `os.path.splitext(path)[1]` (POSIX): the suffix of the basename
from its last dot, unless that dot belongs to the leading run of dots. -/
def splitextExt (path : List Char) : List Char :=
  let base := (path.reverse.takeWhile (fun c => c != '/')).reverse
  let lead := (base.takeWhile (fun c => c == '.')).length
  let afterDot := base.reverse.takeWhile (fun c => c != '.')
  if afterDot.length = base.length then []
  else
    let dotIdx := base.length - 1 - afterDot.length
    if dotIdx < lead then [] else base.drop dotIdx

/-- Models `parse_qs(query)['format'][0]` presence and value: the first
`format=` pair with a nonempty value (blank values are dropped by
`parse_qs`; percent-decoding is not modelled). -/
def firstFormatValue (query : List Char) : Option (List Char) :=
  (query.splitOn '&').findSome? (fun p =>
    let k := p.takeWhile (fun c => c != '=')
    if k.length = p.length then none
    else
      let v := p.drop (k.length + 1)
      if k = "format".data ∧ v ≠ [] then some v else none)

/-- Models `os.path.join` for one component (POSIX). -/
def ospJoin (a b : String) : String :=
  if b.data.head? = some '/' then b
  else if a = "" then b
  else if a.data.getLast? = some '/' then a ++ b
  else a ++ "/" ++ b

def mediaExtList : List String := [".jpg", ".jpeg", ".png", ".gif", ".webp", ".svg", ".mp4", ".webm"]

/-- The raw-URL domain test of `get_local_path_for_url` line 145:
`'preview.redd.it' in url or 'i.redd.it' in url`. -/
def rawRedditTest (url : String) : Bool :=
  containsStr url "preview.redd.it" || containsStr url "i.redd.it"

/-- The extension-inference part of `get_local_path_for_url`
(jsonl_to_html.py lines 133–153), as a function of the entity-decoded URL
`dec` and the raw-URL domain test `redditRaw` (the only two inputs it
reads). -/
def extForCore (dec : String) (redditRaw : Bool) : String :=
  let pq := urlPathQuery dec.data
  let path : String := ⟨pq.1⟩
  let ext : String := ⟨(splitextExt pq.1).map Char.toLower⟩
  if ext ≠ "" ∧ ext ∈ mediaExtList then ext
  else
    match firstFormatValue pq.2 with
    | some fv =>
      let fh : String := ⟨fv.map Char.toLower⟩
      let e :=
        if fh = "png" then ".png"
        else if fh = "gif" then ".gif"
        else if fh = "webp" then ".webp"
        else ".jpg"
      if fh = "jpg" ∨ fh = "jpeg" ∨ fh = "pjpg" ∨ fh = "pjpeg" then ".jpg" else e
    | none =>
      if redditRaw then
        if containsStr path ".png" then ".png"
        else if containsStr path ".gif" then ".gif"
        else ".jpg"
      else ".jpg"

/-- The inferred extension for a URL: note the domain test reads the RAW
URL while everything else reads the decoded URL. -/
def extFor (url : String) : String := extForCore (unescape url) (rawRedditTest url)

/-- Embeds `get_local_path_for_url(url, media_dir)` (jsonl_to_html.py lines
128–156): 16 hex characters of the MD5 of the entity-decoded URL plus the
inferred extension, joined to the media directory. -/
def get_local_path_for_url (url mediaDir : String) : String :=
  ospJoin mediaDir (md5hex16 (unescape url) ++ extFor url)

/-! ## The URL extractor (`extract_media_urls_from_text`)

The four regular expressions of lines 29–34 are embedded as explicit
matchers.  Each matcher, applied at a position, returns the length of the
(unique) match the Python regex engine would produce there, and `reFindAll`
reproduces `re.findall`'s left-to-right non-overlapping scan.  `\s` is
modelled as ASCII whitespace. -/

/-- The character class `[^\s<>")\]]`. -/
def urlBodyChar (c : Char) : Bool :=
  !(c = ' ' || c = '\t' || c = '\n' || c = '\r' || c = '\x0b' || c = '\x0c'
    || c = '<' || c = '>' || c = '"' || c = ')' || c = ']')

/-- Case-insensitive literal match: `pat` (given lowercase) against the
start of `l`; returns the rest of `l`. -/
def matchCaseless : List Char → List Char → Option (List Char)
  | [], l => some l
  | _ :: _, [] => none
  | p :: ps, c :: cs => if c.toLower = p then matchCaseless ps cs else none

/-- `https?://` (case-insensitive): returns consumed length and the rest.
The optional `s` never needs backtracking because `:` differs from `s`. -/
def matchScheme (l : List Char) : Option (Nat × List Char) :=
  match matchCaseless "http".data l with
  | none => none
  | some rest =>
    match rest with
    | c :: cs =>
      if c.toLower = 's' then (matchCaseless "://".data cs).map (fun r => (8, r))
      else (matchCaseless "://".data rest).map (fun r => (7, r))
    | [] => none

/-- Try the domain alternatives in regex order, then a nonempty greedy
`[^\s<>")\]]+` run.  The alternative lists used below are pairwise
prefix-incompatible on any fixed text, so first-match is exact. -/
def matchAltsRun (alts : List (List Char)) (l : List Char) : Option Nat :=
  match alts with
  | [] => none
  | a :: rest =>
    match matchCaseless a l with
    | some l2 =>
      let run := l2.takeWhile urlBodyChar
      if run.isEmpty then none else some (a.length + run.length)
    | none => matchAltsRun rest l

/-- A full `https?://(alt1|...|altN)[^\s<>")\]]+` pattern. -/
def matchDomainPattern (alts : List (List Char)) (l : List Char) : Option Nat :=
  match matchScheme l with
  | none => none
  | some (n, rest) => (matchAltsRun alts rest).map (n + ·)

/-- Does one of the extension alternatives match (case-insensitively) right
after a dot at position `j` of the greedy run? -/
def tryDotAt (exts : List (List Char)) (run : List Char) (j : Nat) : Option Nat :=
  if run.getD j ' ' = '.' then
    match exts.find? (fun e => (matchCaseless e (run.drop (j + 1))).isSome) with
    | some e => some (j + 1 + e.length)
    | none => none
  else none

/-- Backtracking of the greedy `[^\s<>")\]]+` before `\.(ext1|...)`: try dot
positions from the right (`counting down from the given position to 1`). -/
def extSplitGo (exts : List (List Char)) (run : List Char) : Nat → Option Nat
  | 0 => none
  | j + 1 =>
    match tryDotAt exts run (j + 1) with
    | some n => some n
    | none => extSplitGo exts run j

/-- A full `https?://[^\s<>")\]]+\.(ext1|...|extN)` pattern.  The extension
characters are letters, hence always inside the greedy run, and the
character after the run is never a dot (dots are run characters), so the
rightmost in-run split is exactly the regex's backtracking result. -/
def matchExtPattern (exts : List (List Char)) (l : List Char) : Option Nat :=
  match matchScheme l with
  | none => none
  | some (n, rest) =>
    let run := rest.takeWhile urlBodyChar
    if run.isEmpty then none
    else (extSplitGo exts run (run.length - 1)).map (n + ·)

def imageExts : List (List Char) :=
  ["jpg".data, "jpeg".data, "png".data, "gif".data,
   "webp".data, "svg".data, "bmp".data, "ico".data]

def videoExts : List (List Char) :=
  ["mp4".data, "avi".data, "mov".data, "wmv".data,
   "flv".data, "webm".data, "m4v".data, "mpg".data, "mpeg".data]

/-- Line 30: `https?://(?:preview\.|i\.|v\.)?redd\.it/[^\s<>")\]]+`. -/
def matchP1 (l : List Char) : Option Nat :=
  matchDomainPattern
    ["preview.redd.it/".data, "i.redd.it/".data, "v.redd.it/".data, "redd.it/".data] l

/-- Line 31: image-extension URLs. -/
def matchP2 (l : List Char) : Option Nat := matchExtPattern imageExts l

/-- Line 32: video-extension URLs. -/
def matchP3 (l : List Char) : Option Nat := matchExtPattern videoExts l

/-- Line 33: `https?://(?:i\.)?imgur\.com/[^\s<>")\]]+`. -/
def matchP4 (l : List Char) : Option Nat :=
  matchDomainPattern ["i.imgur.com/".data, "imgur.com/".data] l

/-- `re.findall` scan: at each position try the matcher; on a match of
length `n` continue after it, otherwise advance one character.  Fuel is
seeded with the text length (every step consumes at least one character:
all four matchers only succeed with length at least 8). -/
def findAllGo (m : List Char → Option Nat) : Nat → List Char → List (List Char)
  | 0, _ => []
  | _ + 1, [] => []
  | fuel + 1, l@(_ :: tl) =>
    match m l with
    | some n => l.take n :: findAllGo m fuel (l.drop n)
    | none => findAllGo m fuel tl

def reFindAll (m : List Char → Option Nat) (t : List Char) : List (List Char) :=
  findAllGo m t.length t

def isPunctB (c : Char) : Bool :=
  c = '.' || c = ',' || c = ';' || c = ':' || c = '!' || c = '?' || c = ')'

/-- Models Python `str.rstrip('.,;:!?)')`. -/
def rstripPunct (l : List Char) : List Char :=
  (l.reverse.dropWhile isPunctB).reverse

/-- Lines 40–43: strip trailing punctuation, then append unless already
seen (the Python `found_urls` set and `urls` list always hold the same
elements, so one list suffices). -/
def addCandidate (urls : List String) (mt : List Char) : List String :=
  let s : String := ⟨rstripPunct mt⟩
  if s ∈ urls then urls else urls ++ [s]

/-- Embeds `extract_media_urls_from_text(text)` (jsonl_to_html.py lines
23–45): for each of the four patterns in order, all matches in text order,
each right-stripped of trailing `.,;:!?)`, deduplicated across all patterns
keeping first occurrences. -/
def extract_media_urls_from_text (text : String) : List String :=
  if text = "" then []
  else
    [matchP1, matchP2, matchP3, matchP4].foldl (fun urls m =>
      (reFindAll m text.data).foldl addCandidate urls) []

/-! ## Comments and the tree merger -/

/-- A parsed comment as produced by `parse_reddit_comment` (lines 358–365):
id, author, body, score, createdAt, and the ordered reply list.
(`created_utc` is modelled as an integer.) -/
inductive Comment : Type where
  | mk (id author body : String) (score createdAt : Int) (replies : List Comment) : Comment

def Comment.id : Comment → String | .mk i _ _ _ _ _ => i
def Comment.author : Comment → String | .mk _ a _ _ _ _ => a
def Comment.body : Comment → String | .mk _ _ b _ _ _ => b
def Comment.score : Comment → Int | .mk _ _ _ s _ _ => s
def Comment.createdAt : Comment → Int | .mk _ _ _ _ t _ => t
def Comment.replies : Comment → List Comment | .mk _ _ _ _ _ r => r

/-- `merged[reply_id]['replies'] = merged_replies`: the same comment with a
new reply list. -/
def Comment.withReplies : Comment → List Comment → Comment
  | .mk i a b s t _, rs => .mk i a b s t rs

/-- The comparison realised by
`sorted(..., key=lambda x: (x['score'], x['createdAt']), reverse=True)`:
`a` may precede `b` iff `a`'s key is lexicographically at least `b`'s. -/
def commentKeyGE (a b : Comment) : Prop :=
  b.score < a.score ∨ (b.score = a.score ∧ b.createdAt ≤ a.createdAt)

instance : DecidableRel commentKeyGE := fun a b => by
  unfold commentKeyGE; exact inferInstance

instance : IsTotal Comment commentKeyGE :=
  ⟨by intro a b; unfold commentKeyGE; omega⟩

instance : IsTrans Comment commentKeyGE :=
  ⟨by intro a b c; unfold commentKeyGE; omega⟩

/-- Python's `sorted` with `reverse=True` is the stable descending sort by
the key tuple; the unique stable sort for the total preorder
`commentKeyGE`, realised by insertion sort. -/
def sortComments (l : List Comment) : List Comment := List.insertionSort commentKeyGE l

mutual

/-- Number of nodes in a comment tree (used to seed recursion fuel). -/
def sizeComment : Comment → Nat
  | .mk _ _ _ _ _ rs => 1 + sizeForest rs

/-- Number of nodes in a list of comment trees. -/
def sizeForest : List Comment → Nat
  | [] => 0
  | c :: cs => sizeComment c + sizeForest cs

end

/-- First index and element with the given id (Python dict lookup on an
insertion-ordered id-keyed dict represented as a list of comments). -/
def findWithIdx (i : String) : List Comment → Option (Nat × Comment)
  | [] => none
  | c :: cs => if c.id = i then some (0, c) else (findWithIdx i cs).map (fun p => (p.1 + 1, p.2))

/-- Python dict insertion: an existing key keeps its position and gets the
new value; a new key is appended. -/
def pyDictInsert (acc : List Comment) (c : Comment) : List Comment :=
  match findWithIdx c.id acc with
  | some p => acc.set p.1 c
  | none => acc ++ [c]

/-- `{reply['id']: reply.copy() for reply in replies1}` (line 371). -/
def pyDictOf (l : List Comment) : List Comment := l.foldl pyDictInsert []

/-- Lines 383–384 / 408–409: the first comment's body is empty or the
`"[unavailable]"` sentinel. -/
def bodyMissingB (c : Comment) : Bool := c.body == "" || c.body == "[unavailable]"

/-- The merge keeps the second node's scalar fields exactly when the first
body is missing/sentinel and the second is not (lines 383–385 / 408–410). -/
def preferSecond (c1 c2 : Comment) : Bool := bodyMissingB c1 && !bodyMissingB c2

/-- The merging loop of `merge_comment_replies` (lines 374–390) over the
insertion-ordered dict `acc`.  The Python recursion terminates because the
second argument of every recursive call is the reply list of an element of
`l2`; here the recursion is made structural with a fuel argument seeded
with `sizeForest l2`, and `mergeIntoF_fuel_congr` below proves the result
independent of any sufficient fuel. -/
def mergeIntoF : Nat → List Comment → List Comment → List Comment
  | _, acc, [] => acc
  | 0, acc, _ :: _ => acc
  | fuel + 1, acc, r2 :: rest =>
    let acc' :=
      match findWithIdx r2.id acc with
      | some p =>
        let c1 := p.2
        let mergedReplies := sortComments (mergeIntoF fuel (pyDictOf c1.replies) r2.replies)
        let winner := if preferSecond c1 r2 then r2 else c1
        acc.set p.1 (winner.withReplies mergedReplies)
      | none => acc ++ [r2]
    mergeIntoF fuel acc' rest

/-- One iteration of the lines 374–390 loop, as a standalone definition for
the lemmas below (definitionally the body of `mergeIntoF`'s step). -/
def mergeStep (fuel : Nat) (acc : List Comment) (r2 : Comment) : List Comment :=
  match findWithIdx r2.id acc with
  | some p =>
    let c1 := p.2
    let mergedReplies := sortComments (mergeIntoF fuel (pyDictOf c1.replies) r2.replies)
    let winner := if preferSecond c1 r2 then r2 else c1
    acc.set p.1 (winner.withReplies mergedReplies)
  | none => acc ++ [r2]

/-- Embeds `merge_comment_replies(replies1, replies2)` (lines 368–392). -/
def merge_comment_replies (l1 l2 : List Comment) : List Comment :=
  sortComments (mergeIntoF (sizeForest l2) (pyDictOf l1) l2)

/-- One iteration of the lines 399–414 loop of `merge_comment_trees`. -/
def treeStep (acc : List Comment) (c2 : Comment) : List Comment :=
  match findWithIdx c2.id acc with
  | some p =>
    let c1 := p.2
    let mergedReplies := merge_comment_replies c1.replies c2.replies
    let winner := if preferSecond c1 c2 then c2 else c1
    acc.set p.1 (winner.withReplies mergedReplies)
  | none => acc ++ [c2]

/-- Embeds `merge_comment_trees(tree1, tree2)` (lines 395–416); the trees
are insertion-ordered id→Comment dicts modelled as lists whose elements'
ids are the keys.  Note: unlike reply lists, the resulting top-level dict
is NOT sorted. -/
def merge_comment_trees (t1 t2 : List Comment) : List Comment :=
  t2.foldl treeStep t1

/-- Recursively re-sort every reply list with the merge sort key: the
"equal up to re-sorting of reply order" normal form used to state the
self-merge property.  Fuel is seeded with `sizeForest`. -/
def resortF : Nat → List Comment → List Comment
  | 0, l => l
  | fuel + 1, l => sortComments (l.map (fun c => c.withReplies (resortF fuel c.replies)))

def resortReplies (l : List Comment) : List Comment := resortF (sizeForest l) l

/-- A node with its reply subtree recursively re-sorted. -/
def resortNode (c : Comment) : Comment := c.withReplies (resortReplies c.replies)

/-- Well-formed comment: the ids in the reply list are distinct at every
level (reply collections originate from Python dicts keyed by id). -/
inductive WFC : Comment → Prop where
  | mk : ∀ (i a b : String) (s t : Int) (rs : List Comment),
      (rs.map Comment.id).Nodup → (∀ c ∈ rs, WFC c) → WFC (.mk i a b s t rs)

/-! ## The media downloader (`download_media` / `download_media_batch`) -/

/-- Generic insertion-ordered dict lookup. -/
def alookup {α : Type} : List (String × α) → String → Option α
  | [], _ => none
  | (k, v) :: rest, i => if k = i then some v else alookup rest i

/-- Python dict assignment: existing key keeps its position, new key is
appended. -/
def aset {α : Type} : List (String × α) → String → α → List (String × α)
  | [], k, v => [(k, v)]
  | (k', v') :: rest, k, v => if k' = k then (k, v) :: rest else (k', v') :: aset rest k v

/-- The downloader's observable state: the shared `url_to_local_path` dict,
the filesystem under the destination directory (`path ↦ size` for existing
files), and the log of issued network requests `(decoded url, attempt)`. -/
structure DLState where
  map : List (String × String)
  fs : String → Option Nat
  log : List (String × Nat)

def fsUpdate (fs : String → Option Nat) (p : String) (v : Option Nat) : String → Option Nat :=
  fun q => if q = p then v else fs q

/-- Second retry attempt of `download_media` (lines 181–225, `attempt = 1`):
a successful nonzero-byte response records both URL forms and returns the
path; a zero-byte response deletes the file and falls off the retry loop
(`return None`); a transport error propagates to the outer handler
(`return None`). -/
def downloadAttempt2 (net : String → Nat → Option Nat) (url urlDecoded localPath : String)
    (st : DLState) : Option String × DLState :=
  let st0 := { st with log := st.log ++ [(urlDecoded, 1)] }
  match net urlDecoded 1 with
  | some n =>
    let st1 := { st0 with fs := fsUpdate st0.fs localPath (some n) }
    if 0 < n then
      (some localPath,
       { st1 with map := aset (aset st1.map urlDecoded localPath) url localPath })
    else
      (none, { st1 with fs := fsUpdate st1.fs localPath none })
  | none => (none, st0)

/-- First attempt (`attempt = 0`, browser identity with referrer): on
transport error sleep and retry; on zero-byte response delete and retry. -/
def downloadAttempts (net : String → Nat → Option Nat) (url urlDecoded localPath : String)
    (st : DLState) : Option String × DLState :=
  let st0 := { st with log := st.log ++ [(urlDecoded, 0)] }
  match net urlDecoded 0 with
  | some n =>
    let st1 := { st0 with fs := fsUpdate st0.fs localPath (some n) }
    if 0 < n then
      (some localPath,
       { st1 with map := aset (aset st1.map urlDecoded localPath) url localPath })
    else
      downloadAttempt2 net url urlDecoded localPath
        { st1 with fs := fsUpdate st1.fs localPath none }
  | none => downloadAttempt2 net url urlDecoded localPath st0

/-- Embeds `download_media(url, media_dir, url_to_local_path, lock)` (lines
159–228).  The network is an oracle `net decodedUrl attempt` (`url_to_fetch`
is always the decoded URL): `some n` is a successful response producing an
`n`-byte file, `none` a transport error or bad status.  The model is
sequential, so the lock-protected sections are atomic. -/
def download_media (net : String → Nat → Option Nat) (url mediaDir : String)
    (st : DLState) : Option String × DLState :=
  let urlDecoded := unescape url
  match alookup st.map urlDecoded with
  | some p => (some p, st)
  | none =>
  match alookup st.map url with
  | some p => (some p, st)
  | none =>
    let localPath := get_local_path_for_url url mediaDir
    match st.fs localPath with
    | some sz =>
      if 0 < sz then
        (some localPath,
         { st with map := aset (aset st.map urlDecoded localPath) url localPath })
      else downloadAttempts net url urlDecoded localPath st
    | none => downloadAttempts net url urlDecoded localPath st

/-- `list(set(urls))` up to ordering (Python set order is unspecified;
first-occurrence order is used, and the batch theorems do not depend on
it). -/
def dedupKeepFirst (l : List String) : List String :=
  l.foldl (fun acc u => if u ∈ acc then acc else acc ++ [u]) []

def downloadBatchGo (net : String → Nat → Option Nat) (mediaDir : String) :
    DLState → List String → List (String × Option String) × DLState
  | st, [] => ([], st)
  | st, u :: rest =>
    let r := download_media net u mediaDir st
    let rest' := downloadBatchGo net mediaDir r.2 rest
    ((u, r.1) :: rest'.1, rest'.2)

/-- Embeds `download_media_batch(urls, media_dir, url_to_local_path)` (lines
231–266): every unique URL is dispatched and its result (possibly `none`)
is recorded in `results`; a worker's exception also yields `none` for that
URL only.  Tasks are modelled sequentially; results carry one entry per
unique URL. -/
def download_media_batch (net : String → Nat → Option Nat) (urls : List String)
    (mediaDir : String) (st : DLState) : List (String × Option String) × DLState :=
  downloadBatchGo net mediaDir st (dedupKeepFirst urls)

/-! ## `replace_urls_in_text` and the orchestrator's replacement map -/

/-- One iteration of the lines 279–285 loop: the first substitution is
guarded by `local_path` truthiness, the second only by
`decoded_url != original_url and decoded_url in text`, so a `None` value
reaching it raises `TypeError` (modelled as `.error ()`). -/
def replaceStep (t : String) (kv : String × Option String) : Except Unit String :=
  let t1 :=
    match kv.2 with
    | some p => if p ≠ "" ∧ containsStr t kv.1 then strReplace t kv.1 p else t
    | none => t
  let dec := unescape kv.1
  if dec ≠ kv.1 ∧ containsStr t1 dec then
    match kv.2 with
    | some p => Except.ok (strReplace t1 dec p)
    | none => Except.error ()
  else Except.ok t1

/-- Embeds `replace_urls_in_text(text, url_replacements)` (lines 269–287),
with `Option String` values so the `None` hazard of the unguarded second
substitution is visible. -/
def replace_urls_in_text (text : String) (reps : List (String × Option String)) :
    Except Unit String :=
  if text = "" ∨ reps = [] then .ok text
  else if !containsStr text "http" then .ok text
  else reps.foldlM replaceStep text

/-- Embeds the `url_replacements` construction in `main` (lines 1154–1159):
only URLs whose download succeeded (non-`None` local path) are included;
the `os.path.relpath(local_path, output_dir)` value is abstracted as
`rel local_path`. -/
def build_url_replacements (m : List (String × Option String)) (rel : String → String) :
    List (String × String) :=
  m.foldl (fun acc kv =>
    match kv.2 with
    | some p => acc ++ [(kv.1, rel p)]
    | none => acc) []

/-! ## Post retention in `load_jsonl_file` -/

/-- The fields of a raw post record that the retention logic reads. -/
structure RawPost where
  name : String
  selftext : String
deriving DecidableEq

/-- The post-retention step of `load_jsonl_file` (lines 997–1012): a record
with empty id is not stored; a new id is appended; an existing id is
replaced only when the incoming serialized selftext is strictly longer
(the freshly created entry compares against itself, a no-op).  The parallel
accumulation of `comments_listings` is orthogonal to which `post_item` is
retained and is not modelled. -/
def store_post_record (posts : List (String × RawPost)) (p : RawPost) :
    List (String × RawPost) :=
  if p.name = "" then posts
  else
    match alookup posts p.name with
    | none => posts ++ [(p.name, p)]
    | some e =>
      if e.selftext.length < p.selftext.length then aset posts p.name p else posts

/-- Processing a stream of post records (possibly across several input
files) accumulates via `store_post_record`. -/
def load_posts (records : List RawPost) : List (String × RawPost) :=
  records.foldl store_post_record []

/-- Modelled from the amended claim: the earliest record with maximal
selftext length among the candidates. -/
def firstLongest (l : List RawPost) : Option RawPost :=
  l.foldl (fun acc p =>
    match acc with
    | none => some p
    | some q => if q.selftext.length < p.selftext.length then some p else some q) none

/-! # Lemmas: insertion-ordered dict operations -/

theorem alookup_aset_eq {α : Type} (m : List (String × α)) (k : String) (v : α) :
    alookup (aset m k v) k = some v := by
  induction m with
  | nil => simp [aset, alookup]
  | cons kv rest ih =>
    by_cases h : kv.1 = k
    · simp [aset, h, alookup]
    · simp [aset, h, alookup, ih]

theorem alookup_aset_ne {α : Type} (m : List (String × α)) (k k' : String) (v : α)
    (h : k' ≠ k) : alookup (aset m k v) k' = alookup m k' := by
  have h' : ¬(k = k') := fun hh => h hh.symm
  induction m with
  | nil => simp [aset, alookup, h']
  | cons kv rest ih =>
    by_cases hk : kv.1 = k
    · simp [aset, hk, alookup, h', ih]
    · simp [aset, hk, alookup, ih]

theorem alookup_append {α : Type} (m1 m2 : List (String × α)) (k : String) :
    alookup (m1 ++ m2) k =
      match alookup m1 k with
      | some v => some v
      | none => alookup m2 k := by
  induction m1 with
  | nil => simp [alookup]
  | cons kv rest ih =>
    by_cases h : kv.1 = k
    · simp [alookup, h]
    · simp [alookup, h, ih]

/-! # C1: content addressing determined by the decoded reference -/

/-- **C1** (counterexample).  The claim `decoded forms equal →
get_local_path_for_url equal` is false: `"https://i.redd.it/a.png.x"` and
`"https://i&#46;redd.it/a.png.x"` decode identically (so their hash halves
agree), but the raw-URL test `'i.redd.it' in url` on line 145 sees only the
first, yielding extensions `.png` versus `.jpg`. -/
theorem c1_counterexample :
    unescape "https://i.redd.it/a.png.x" = unescape "https://i&#46;redd.it/a.png.x" ∧
    get_local_path_for_url "https://i.redd.it/a.png.x" "media" ≠
      get_local_path_for_url "https://i&#46;redd.it/a.png.x" "media" := by
  constructor
  · decide
  · decide

/-- **C1** (amended).  The 16-hex-character hash depends only on the
decoded reference, and the whole local path depends only on the decoded
reference together with the raw string's `preview.redd.it`/`i.redd.it`
containment test: decoded-equal references whose raw forms agree on that
test get equal paths in every media directory. -/
theorem c1_amended (r1 r2 d : String)
    (hdec : unescape r1 = unescape r2)
    (hraw : rawRedditTest r1 = rawRedditTest r2) :
    md5hex16 (unescape r1) = md5hex16 (unescape r2) ∧
    get_local_path_for_url r1 d = get_local_path_for_url r2 d := by
  refine ⟨by rw [hdec], ?_⟩
  unfold get_local_path_for_url extFor
  rw [hdec, hraw]

/-- Witness for `c1_amended` at concrete inputs. -/
theorem c1_amended_witness :
    (unescape "https://x.com/a&amp;.jpg" = unescape "https://x.com/a&#38;.jpg" ∧
     rawRedditTest "https://x.com/a&amp;.jpg" = rawRedditTest "https://x.com/a&#38;.jpg") ∧
    get_local_path_for_url "https://x.com/a&amp;.jpg" "media" =
      get_local_path_for_url "https://x.com/a&#38;.jpg" "media" :=
  ⟨⟨by decide, by decide⟩,
   (c1_amended "https://x.com/a&amp;.jpg" "https://x.com/a&#38;.jpg" "media"
     (by decide) (by decide)).2⟩

/-! # C10: totality of `replace_urls_in_text` under the orchestrator's
precondition -/

theorem exists_ok_of_ite {c : Prop} [Decidable c] (a b : String) :
    ∃ s, (if c then Except.ok a else Except.ok b : Except Unit String) = Except.ok s := by
  by_cases h : c
  · exact ⟨a, if_pos h⟩
  · exact ⟨b, if_neg h⟩

theorem replaceStep_ok (t : String) (kv : String × Option String) (h : kv.2 ≠ none) :
    ∃ s, replaceStep t kv = Except.ok s := by
  obtain ⟨k, v⟩ := kv
  cases v with
  | none => simp at h
  | some p =>
    unfold replaceStep
    dsimp only
    exact exists_ok_of_ite _ _

theorem foldlM_replaceStep_ok :
    ∀ (reps : List (String × Option String)) (t : String),
      (∀ kv ∈ reps, kv.2 ≠ none) →
      ∃ s, List.foldlM replaceStep t reps = Except.ok s := by
  intro reps
  induction reps with
  | nil => exact fun t _ => ⟨t, rfl⟩
  | cons kv rest ih =>
    intro t h
    obtain ⟨s1, hs1⟩ := replaceStep_ok t kv (h kv (List.mem_cons_self kv rest))
    obtain ⟨s2, hs2⟩ := ih s1 (fun kv' hm => h kv' (List.mem_cons_of_mem kv hm))
    refine ⟨s2, ?_⟩
    rw [List.foldlM_cons, hs1]
    exact hs2

/-- **C10** (confirmed).  `replace_urls_in_text` returns a string whenever
every value of the mapping is a string; the unguarded second substitution
raises on a `None` value whose key decodes differently and whose decoded
form occurs in the text; and under `main`'s precondition — the replacement
map is built only from URLs whose download succeeded — the error branch is
unreachable. -/
theorem c10_replace_urls_total_under_precondition :
    (∀ (text : String) (reps : List (String × Option String)),
        (∀ kv ∈ reps, kv.2 ≠ none) →
        ∃ s, replace_urls_in_text text reps = Except.ok s) ∧
    replace_urls_in_text "pic: https://x.com/a&b.jpg here"
        [("https://x.com/a&amp;b.jpg", none)] = Except.error () ∧
    (∀ (text : String) (m : List (String × Option String)) (rel : String → String),
        ∃ s, replace_urls_in_text text
          ((build_url_replacements m rel).map (fun kv => (kv.1, some kv.2))) =
            Except.ok s) := by
  have total : ∀ (text : String) (reps : List (String × Option String)),
      (∀ kv ∈ reps, kv.2 ≠ none) →
      ∃ s, replace_urls_in_text text reps = Except.ok s := by
    intro text reps h
    unfold replace_urls_in_text
    split
    · exact ⟨text, rfl⟩
    · split
      · exact ⟨text, rfl⟩
      · exact foldlM_replaceStep_ok reps text h
  refine ⟨total, by rfl, ?_⟩
  intro text m rel
  refine total text _ ?_
  intro kv hm
  obtain ⟨x, _, hx⟩ := List.mem_map.mp hm
  rw [← hx]
  simp

/-- Witness for `c10_replace_urls_total_under_precondition` at concrete
inputs. -/
theorem c10_witness :
    ∃ s, replace_urls_in_text "see https://a.io/x.jpg"
      [("https://a.io/x.jpg", some "media/x.jpg")] = Except.ok s :=
  c10_replace_urls_total_under_precondition.1 "see https://a.io/x.jpg"
    [("https://a.io/x.jpg", some "media/x.jpg")] (by decide)

/-! # C8: post retention keeps the longest selftext, earliest on ties -/

/-- **C8** (counterexample).  The claim `ties are resolved in favour of the
later-seen record` is false: with two same-id records of selftext lengths
2 and 2, the strict `>` on line 1011 keeps the EARLIER record. -/
theorem c8_counterexample :
    load_posts [RawPost.mk "p1" "ab", RawPost.mk "p1" "cd"] =
      [("p1", RawPost.mk "p1" "ab")] ∧
    (RawPost.mk "p1" "ab").selftext.length = (RawPost.mk "p1" "cd").selftext.length ∧
    RawPost.mk "p1" "ab" ≠ RawPost.mk "p1" "cd" := by
  refine ⟨by decide, rfl, by decide⟩

theorem load_posts_append (rs : List RawPost) (p : RawPost) :
    load_posts (rs ++ [p]) = store_post_record (load_posts rs) p := by
  simp [load_posts, List.foldl_append]

theorem firstLongest_append (l : List RawPost) (p : RawPost) :
    firstLongest (l ++ [p]) =
      match firstLongest l with
      | none => some p
      | some q => if q.selftext.length < p.selftext.length then some p else some q := by
  simp [firstLongest, List.foldl_append]

theorem firstLongest_cons_ne_none (x : RawPost) (xs : List RawPost) :
    firstLongest (x :: xs) ≠ none := by
  suffices h : ∀ (l : List RawPost) (q : RawPost),
      l.foldl (fun acc p =>
        match acc with
        | none => some p
        | some q => if q.selftext.length < p.selftext.length then some p else some q)
        (some q) ≠ none by
    exact h xs x
  intro l
  induction l with
  | nil => intro q; simp
  | cons y ys ih =>
    intro q
    simp only [List.foldl_cons]
    split <;> apply ih

/-- **C8** (amended).  For every id, the retained record is the earliest
one with maximal serialized selftext length among the records carrying that
id: ties favour the EARLIER-seen record, not the later one. -/
theorem c8_amended :
    (∀ (records : List RawPost) (i : String), i ≠ "" →
        alookup (load_posts records) i =
          firstLongest (records.filter (fun p => p.name = i))) ∧
    (∀ (l : List RawPost) (p : RawPost), firstLongest l = some p →
        p ∈ l ∧ (∀ q ∈ l, q.selftext.length ≤ p.selftext.length) ∧
        ∃ l1 l2, l = l1 ++ p :: l2 ∧
          ∀ q ∈ l1, q.selftext.length < p.selftext.length) := by
  constructor
  · intro records
    induction records using List.reverseRecOn with
    | nil => intro i _; simp [load_posts, alookup, firstLongest]
    | append_singleton rs p ih =>
      intro i hi
      rw [load_posts_append, List.filter_append]
      by_cases hp0 : p.name = ""
      · have hfp : List.filter (fun q => decide (q.name = i)) [p] = [] := by
          simp only [List.filter_cons, List.filter_nil]
          rw [if_neg]
          simp only [decide_eq_true_eq, hp0]
          exact fun hh => hi hh.symm
        rw [hfp, List.append_nil, store_post_record, if_pos hp0]
        exact ih i hi
      · by_cases hpi : p.name = i
        · subst hpi
          have hfp : List.filter (fun q => decide (q.name = p.name)) [p] = [p] := by simp
          rw [hfp, firstLongest_append, store_post_record, if_neg hp0]
          have hF := ih p.name hi
          cases hlook : alookup (load_posts rs) p.name with
          | none =>
            have hFl : firstLongest (List.filter (fun q => decide (q.name = p.name)) rs)
                = none := hF.symm.trans hlook
            rw [hFl]
            dsimp only
            rw [alookup_append, hlook]
            simp [alookup]
          | some e =>
            have hFl : firstLongest (List.filter (fun q => decide (q.name = p.name)) rs)
                = some e := hF.symm.trans hlook
            rw [hFl]
            dsimp only
            by_cases hlen : e.selftext.length < p.selftext.length
            · rw [if_pos hlen, if_pos hlen]
              exact alookup_aset_eq _ _ _
            · rw [if_neg hlen, if_neg hlen]
              exact hlook
        · have hfp : List.filter (fun q => decide (q.name = i)) [p] = [] := by
            simp only [List.filter_cons, List.filter_nil]
            rw [if_neg]
            simp only [decide_eq_true_eq]
            exact hpi
          rw [hfp, List.append_nil, ← ih i hi, store_post_record, if_neg hp0]
          cases hlook : alookup (load_posts rs) p.name with
          | none =>
            dsimp only
            rw [alookup_append]
            cases h2 : alookup (load_posts rs) i with
            | none => simp [alookup, hpi]
            | some v => simp
          | some e =>
            dsimp only
            by_cases hlen : e.selftext.length < p.selftext.length
            · rw [if_pos hlen]
              exact alookup_aset_ne _ _ _ _ (fun hh => hpi hh.symm)
            · rw [if_neg hlen]
  · intro l
    induction l using List.reverseRecOn with
    | nil => intro p hp; simp [firstLongest] at hp
    | append_singleton xs x ih =>
      intro p hp
      rw [firstLongest_append] at hp
      cases hfl : firstLongest xs with
      | none =>
        rw [hfl] at hp
        dsimp only at hp
        cases xs with
        | nil =>
          injection hp with hxp
          subst hxp
          exact ⟨List.mem_append_right _ (List.mem_singleton.mpr rfl),
            by intro q hq; simp at hq; rw [hq],
            [], [], by simp, by simp⟩
        | cons y ys => exact absurd hfl (firstLongest_cons_ne_none y ys)
      | some q =>
        rw [hfl] at hp
        dsimp only at hp
        obtain ⟨hqmem, hqmax, l1, l2, hdecomp, hstrict⟩ := ih q hfl
        by_cases hlen : q.selftext.length < x.selftext.length
        · rw [if_pos hlen] at hp
          injection hp with hxp
          subst hxp
          refine ⟨List.mem_append_right _ (List.mem_singleton.mpr rfl), ?_, xs, [], rfl, ?_⟩
          · intro r hr
            rcases List.mem_append.mp hr with h | h
            · exact le_of_lt (lt_of_le_of_lt (hqmax r h) hlen)
            · rw [List.mem_singleton.mp h]
          · intro r hr
            exact lt_of_le_of_lt (hqmax r hr) hlen
        · rw [if_neg hlen] at hp
          injection hp with hxp
          subst hxp
          refine ⟨List.mem_append_left _ hqmem, ?_, l1, l2 ++ [x], ?_, hstrict⟩
          · intro r hr
            rcases List.mem_append.mp hr with h | h
            · exact hqmax r h
            · rw [List.mem_singleton.mp h]
              exact le_of_not_lt hlen
          · rw [hdecomp]
            simp

/-! # C6/C7: the URL extractor -/

theorem matchCaseless_toLower :
    ∀ (p l r : List Char), matchCaseless p l = some r →
      (l.map Char.toLower).take p.length = p := by
  intro p
  induction p with
  | nil => intro l r _; simp
  | cons x xs ih =>
    intro l r h
    cases l with
    | nil => simp [matchCaseless] at h
    | cons c cs =>
      simp only [matchCaseless] at h
      by_cases hc : c.toLower = x
      · rw [if_pos hc] at h
        simp only [List.map_cons, List.length_cons, List.take_succ_cons]
        rw [hc, ih cs r h]
      · rw [if_neg hc] at h
        exact absurd h (by simp)

theorem matchScheme_http (l : List Char) (x : Nat × List Char)
    (h : matchScheme l = some x) : (l.map Char.toLower).take 4 = "http".data := by
  unfold matchScheme at h
  cases hm : matchCaseless "http".data l with
  | none =>
    rw [hm] at h
    dsimp only at h
    exact Option.noConfusion h
  | some rest =>
    exact matchCaseless_toLower "http".data l rest hm

theorem matchScheme_len (l : List Char) (k : Nat) (r : List Char)
    (h : matchScheme l = some (k, r)) : k = 7 ∨ k = 8 := by
  unfold matchScheme at h
  cases hm : matchCaseless "http".data l with
  | none =>
    rw [hm] at h
    dsimp only at h
    exact Option.noConfusion h
  | some rest =>
    rw [hm] at h
    cases rest with
    | nil =>
      dsimp only at h
      exact Option.noConfusion h
    | cons c cs =>
      dsimp only at h
      by_cases hc : c.toLower = 's'
      · rw [if_pos hc] at h
        cases hm2 : matchCaseless "://".data cs with
        | none =>
          rw [hm2] at h
          exact Option.noConfusion h
        | some r2 =>
          rw [hm2] at h
          simp only [Option.map_some', Option.some.injEq, Prod.mk.injEq] at h
          exact Or.inr h.1.symm
      · rw [if_neg hc] at h
        cases hm2 : matchCaseless "://".data (c :: cs) with
        | none =>
          rw [hm2] at h
          exact Option.noConfusion h
        | some r2 =>
          rw [hm2] at h
          simp only [Option.map_some', Option.some.injEq, Prod.mk.injEq] at h
          exact Or.inl h.1.symm

theorem matchDomainPattern_spec (alts : List (List Char)) (l : List Char) (n : Nat)
    (h : matchDomainPattern alts l = some n) :
    (l.map Char.toLower).take 4 = "http".data ∧ 1 ≤ n := by
  unfold matchDomainPattern at h
  cases hs : matchScheme l with
  | none =>
    rw [hs] at h
    dsimp only at h
    exact Option.noConfusion h
  | some x =>
    obtain ⟨k, r⟩ := x
    rw [hs] at h
    dsimp only at h
    refine ⟨matchScheme_http l _ hs, ?_⟩
    cases ha : matchAltsRun alts r with
    | none =>
      rw [ha] at h
      exact Option.noConfusion h
    | some m =>
      rw [ha] at h
      simp only [Option.map_some', Option.some.injEq] at h
      have hk := matchScheme_len l k r hs
      omega

theorem matchExtPattern_spec (exts : List (List Char)) (l : List Char) (n : Nat)
    (h : matchExtPattern exts l = some n) :
    (l.map Char.toLower).take 4 = "http".data ∧ 1 ≤ n := by
  unfold matchExtPattern at h
  cases hs : matchScheme l with
  | none => rw [hs] at h; exact absurd h (by simp)
  | some x =>
    obtain ⟨k, r⟩ := x
    rw [hs] at h
    dsimp only at h
    refine ⟨matchScheme_http l _ hs, ?_⟩
    by_cases hr : (r.takeWhile urlBodyChar).isEmpty
    · rw [if_pos hr] at h
      exact Option.noConfusion h
    · rw [if_neg hr] at h
      cases he : extSplitGo exts (r.takeWhile urlBodyChar)
          ((r.takeWhile urlBodyChar).length - 1) with
      | none =>
        rw [he] at h
        exact Option.noConfusion h
      | some m =>
        rw [he] at h
        simp only [Option.map_some', Option.some.injEq] at h
        have hk := matchScheme_len l k r hs
        omega

theorem matchP1_spec (l : List Char) (n : Nat) (h : matchP1 l = some n) :
    (l.map Char.toLower).take 4 = "http".data ∧ 1 ≤ n := by
  unfold matchP1 at h; exact matchDomainPattern_spec _ l n h

theorem matchP2_spec (l : List Char) (n : Nat) (h : matchP2 l = some n) :
    (l.map Char.toLower).take 4 = "http".data ∧ 1 ≤ n := by
  unfold matchP2 at h; exact matchExtPattern_spec _ l n h

theorem matchP3_spec (l : List Char) (n : Nat) (h : matchP3 l = some n) :
    (l.map Char.toLower).take 4 = "http".data ∧ 1 ≤ n := by
  unfold matchP3 at h; exact matchExtPattern_spec _ l n h

theorem matchP4_spec (l : List Char) (n : Nat) (h : matchP4 l = some n) :
    (l.map Char.toLower).take 4 = "http".data ∧ 1 ≤ n := by
  unfold matchP4 at h; exact matchDomainPattern_spec _ l n h

theorem findAllGo_cons (m : List Char → Option Nat) (k : Nat) (c : Char) (tl : List Char) :
    findAllGo m (k + 1) (c :: tl) =
      match m (c :: tl) with
      | some n => (c :: tl).take n :: findAllGo m k ((c :: tl).drop n)
      | none => findAllGo m k tl := rfl

theorem isPrefixList_iff_take (p : List Char) :
    ∀ l, isPrefixList p l = true ↔ l.take p.length = p := by
  induction p with
  | nil => intro l; simp [isPrefixList]
  | cons x xs ih =>
    intro l
    cases l with
    | nil => simp [isPrefixList]
    | cons c cs =>
      simp only [isPrefixList, Bool.and_eq_true, beq_iff_eq, List.length_cons,
        List.take_succ_cons, List.cons.injEq, ih]
      constructor
      · rintro ⟨h1, h2⟩; exact ⟨h1.symm, h2⟩
      · rintro ⟨h1, h2⟩; exact ⟨h1.symm, h2⟩

theorem containsSub_iff (pat : List Char) :
    ∀ l, containsSub l pat = true ↔ ∃ i, isPrefixList pat (l.drop i) = true := by
  intro l
  induction l with
  | nil =>
    cases pat with
    | nil => simp [containsSub, isPrefixList]
    | cons x xs => simp [containsSub, isPrefixList]
  | cons c cs ih =>
    simp only [containsSub, Bool.or_eq_true, ih]
    constructor
    · rintro (h | ⟨i, hi⟩)
      · exact ⟨0, by simpa using h⟩
      · exact ⟨i + 1, by simpa using hi⟩
    · rintro ⟨i, hi⟩
      cases i with
      | zero => exact Or.inl (by simpa using hi)
      | succ j => exact Or.inr ⟨j, by simpa using hi⟩

theorem findAllGo_eq_nil (m : List Char → Option Nat) (t0 : List Char)
    (H : ∀ i, m (t0.drop i) = none) :
    ∀ (fuel i : Nat), findAllGo m fuel (t0.drop i) = [] := by
  intro fuel
  induction fuel with
  | zero => intro i; rfl
  | succ k ih =>
    intro i
    cases hl : t0.drop i with
    | nil => rfl
    | cons c tl =>
      have hm := H i
      rw [hl] at hm
      rw [findAllGo_cons, hm]
      have htl : t0.drop (i + 1) = tl := by
        rw [← List.tail_drop, hl]
        rfl
      rw [← htl]
      exact ih (i + 1)

theorem reFindAll_eq_nil (m : List Char → Option Nat) (t0 : List Char)
    (H : ∀ i, m (t0.drop i) = none) : reFindAll m t0 = [] := by
  have := findAllGo_eq_nil m t0 H t0.length 0
  simpa [reFindAll] using this

theorem matcher_none_of_no_http (t : String)
    (h : containsSub (t.data.map Char.toLower) "http".data = false)
    (m : List Char → Option Nat)
    (hspec : ∀ l n, m l = some n → (l.map Char.toLower).take 4 = "http".data) :
    ∀ i, m (t.data.drop i) = none := by
  intro i
  cases hmi : m (t.data.drop i) with
  | none => rfl
  | some n =>
    exfalso
    have h4 := hspec _ _ hmi
    have hcontains : containsSub (t.data.map Char.toLower) "http".data = true := by
      rw [containsSub_iff]
      refine ⟨i, ?_⟩
      rw [isPrefixList_iff_take]
      rw [← List.map_drop]
      exact h4
    rw [hcontains] at h
    exact Bool.noConfusion h

/-- **C6** (counterexample).  The claim that the extractor recognizes the
`[label](service|ID)` shorthand and synthesizes
`https://media.<service>.com/media/<ID>/<variant>.gif` is false: the four
regexes of lines 29–34 are all the extractor does, and a shorthand-only
text yields no candidates at all. -/
theorem c6_counterexample :
    extract_media_urls_from_text "[cat gif](giphy|abc123)" = [] ∧
    "https://media.giphy.com/media/abc123/giphy.gif" ∉
      extract_media_urls_from_text "[cat gif](giphy|abc123)" := by
  refine ⟨by decide, by decide⟩

/-- **C6** (amended).  The extractor does not implement the
external-media shorthand and synthesizes no URLs: every text with no
case-insensitive occurrence of `http` — in particular a text whose only
media reference is a `[label](service|ID)` shorthand — produces an empty
candidate list. -/
theorem c6_amended (t : String)
    (h : containsSub (t.data.map Char.toLower) "http".data = false) :
    extract_media_urls_from_text t = [] := by
  have e1 : reFindAll matchP1 t.data = [] :=
    reFindAll_eq_nil _ _ (matcher_none_of_no_http t h matchP1
      (fun l n hh => (matchP1_spec l n hh).1))
  have e2 : reFindAll matchP2 t.data = [] :=
    reFindAll_eq_nil _ _ (matcher_none_of_no_http t h matchP2
      (fun l n hh => (matchP2_spec l n hh).1))
  have e3 : reFindAll matchP3 t.data = [] :=
    reFindAll_eq_nil _ _ (matcher_none_of_no_http t h matchP3
      (fun l n hh => (matchP3_spec l n hh).1))
  have e4 : reFindAll matchP4 t.data = [] :=
    reFindAll_eq_nil _ _ (matcher_none_of_no_http t h matchP4
      (fun l n hh => (matchP4_spec l n hh).1))
  unfold extract_media_urls_from_text
  split
  · rfl
  · simp only [List.foldl_cons, List.foldl_nil, e1, e2, e3, e4]

/-- Witness for `c6_amended` at a concrete input. -/
theorem c6_amended_witness :
    containsSub ("[cat gif](giphy|abc123)".data.map Char.toLower) "http".data = false ∧
    extract_media_urls_from_text "[cat gif](giphy|abc123)" = [] :=
  ⟨by decide, c6_amended "[cat gif](giphy|abc123)" (by decide)⟩

/-- **C7** (counterexample).  On
`"https://example.com/a&amp;.jpg https://i.redd.it/b https://example.com/a&.jpg"`
the extractor returns the `redd.it` match FIRST (matches are grouped by
pattern, not first-seen across the text), and BOTH `.jpg` references
appear even though they decode to the same string (deduplication uses the
raw, not decoded, form). -/
theorem c7_counterexample :
    extract_media_urls_from_text
        "https://example.com/a&amp;.jpg https://i.redd.it/b https://example.com/a&.jpg" =
      ["https://i.redd.it/b", "https://example.com/a&amp;.jpg",
       "https://example.com/a&.jpg"] ∧
    unescape "https://example.com/a&amp;.jpg" = unescape "https://example.com/a&.jpg" ∧
    "https://example.com/a&amp;.jpg" ≠ "https://example.com/a&.jpg" := by
  refine ⟨by decide, by decide, by decide⟩

theorem dropWhile_append_singleton (p : Char → Bool) (c : Char) (hc : p c = false) :
    ∀ ys, ∃ zs, List.dropWhile p (ys ++ [c]) = zs ++ [c] := by
  intro ys
  induction ys with
  | nil => exact ⟨[], by simp [List.dropWhile_cons, hc]⟩
  | cons y ys ih =>
    by_cases hy : p y
    · obtain ⟨zs, hzs⟩ := ih
      exact ⟨zs, by simp [List.dropWhile_cons, hy, hzs]⟩
    · exact ⟨y :: ys, by simp [List.dropWhile_cons, hy]⟩

theorem rstripPunct_cons (c : Char) (l : List Char) (hc : isPunctB c = false) :
    ∃ l', rstripPunct (c :: l) = c :: l' := by
  obtain ⟨zs, hzs⟩ := dropWhile_append_singleton isPunctB c hc l.reverse
  refine ⟨zs.reverse, ?_⟩
  unfold rstripPunct
  rw [List.reverse_cons, hzs, List.reverse_append]
  simp

theorem head?_dropWhile (p : Char → Bool) :
    ∀ (l : List Char) (a : Char), (List.dropWhile p l).head? = some a → p a = false := by
  intro l
  induction l with
  | nil => intro a h; simp [List.dropWhile] at h
  | cons x xs ih =>
    intro a h
    by_cases hx : p x
    · rw [List.dropWhile_cons, if_pos hx] at h
      exact ih a h
    · rw [List.dropWhile_cons, if_neg hx] at h
      simp only [List.head?_cons, Option.some.injEq] at h
      rw [← h]
      exact Bool.eq_false_iff.mpr hx

theorem rstripPunct_getLast (l : List Char) (c : Char)
    (h : (rstripPunct l).getLast? = some c) : isPunctB c = false := by
  unfold rstripPunct at h
  rw [List.getLast?_reverse] at h
  exact head?_dropWhile isPunctB l.reverse c h

theorem findAllGo_mem (m : List Char → Option Nat) :
    ∀ (fuel : Nat) (l mt : List Char), mt ∈ findAllGo m fuel l →
      ∃ l' n, m l' = some n ∧ mt = l'.take n := by
  intro fuel
  induction fuel with
  | zero => intro l mt h; simp [findAllGo] at h
  | succ k ih =>
    intro l mt h
    cases l with
    | nil => simp [findAllGo] at h
    | cons c tl =>
      rw [findAllGo_cons] at h
      cases hm : m (c :: tl) with
      | some n =>
        rw [hm] at h
        rcases List.mem_cons.mp h with h' | h'
        · exact ⟨c :: tl, n, hm, h'⟩
        · exact ih _ _ h'
      | none =>
        rw [hm] at h
        exact ih _ _ h

theorem foldl_addCandidate_mem :
    ∀ (ms : List (List Char)) (acc : List String) (u : String),
      u ∈ ms.foldl addCandidate acc →
      u ∈ acc ∨ ∃ mt ∈ ms, u = (⟨rstripPunct mt⟩ : String) := by
  intro ms
  induction ms with
  | nil => intro acc u h; exact Or.inl h
  | cons mt ms ih =>
    intro acc u h
    rw [List.foldl_cons] at h
    rcases ih _ _ h with h' | ⟨mt', hmt', hu⟩
    · unfold addCandidate at h'
      simp only at h'
      by_cases hmem : (⟨rstripPunct mt⟩ : String) ∈ acc
      · rw [if_pos hmem] at h'
        exact Or.inl h'
      · rw [if_neg hmem] at h'
        rcases List.mem_append.mp h' with h2 | h2
        · exact Or.inl h2
        · exact Or.inr ⟨mt, List.mem_cons_self mt ms, List.mem_singleton.mp h2⟩
    · exact Or.inr ⟨mt', List.mem_cons_of_mem mt hmt', hu⟩

theorem addCandidate_nodup (acc : List String) (mt : List Char) (h : acc.Nodup) :
    (addCandidate acc mt).Nodup := by
  unfold addCandidate
  simp only
  by_cases hmem : (⟨rstripPunct mt⟩ : String) ∈ acc
  · rw [if_pos hmem]; exact h
  · rw [if_neg hmem]
    exact List.Nodup.append h (List.nodup_singleton _)
      ((List.disjoint_singleton).mpr hmem)

theorem foldl_addCandidate_nodup :
    ∀ (ms : List (List Char)) (acc : List String), acc.Nodup →
      (ms.foldl addCandidate acc).Nodup := by
  intro ms
  induction ms with
  | nil => intro acc h; exact h
  | cons mt ms ih =>
    intro acc h
    rw [List.foldl_cons]
    exact ih _ (addCandidate_nodup acc mt h)

theorem take4_http_head (l : List Char)
    (h : (l.map Char.toLower).take 4 = "http".data) :
    ∃ ch tl, l = ch :: tl ∧ ch.toLower = 'h' := by
  cases l with
  | nil => simp at h
  | cons ch tl =>
    refine ⟨ch, tl, rfl, ?_⟩
    have hd : "http".data = 'h' :: "ttp".data := rfl
    rw [hd] at h
    simp only [List.map_cons, List.take_succ_cons, List.cons.injEq] at h
    exact h.1

theorem toLower_h_not_punct (c : Char) (h : c.toLower = 'h') : isPunctB c = false := by
  cases hcb : isPunctB c
  · rfl
  · exfalso
    simp only [isPunctB, Bool.or_eq_true, decide_eq_true_eq] at hcb
    have hlist : c = '.' ∨ c = ',' ∨ c = ';' ∨ c = ':' ∨ c = '!' ∨ c = '?' ∨ c = ')' := by
      tauto
    rcases hlist with h1 | h1 | h1 | h1 | h1 | h1 | h1 <;>
      (subst h1; exact absurd h (by decide))

theorem stripped_match_spec (t : String) (m : List Char → Option Nat)
    (hspec : ∀ l n, m l = some n → (l.map Char.toLower).take 4 = "http".data ∧ 1 ≤ n)
    (mt : List Char) (hmt : mt ∈ reFindAll m t.data) (u : String)
    (hu : u = (⟨rstripPunct mt⟩ : String)) :
    u ≠ "" ∧ ∀ c, u.data.getLast? = some c → isPunctB c = false := by
  obtain ⟨l', n, hm, hmt'⟩ := findAllGo_mem m t.data.length t.data mt hmt
  obtain ⟨h4, hn⟩ := hspec l' n hm
  obtain ⟨ch, tl, rfl, hch⟩ := take4_http_head l' h4
  obtain ⟨k, rfl⟩ : ∃ k, n = k + 1 := ⟨n - 1, by omega⟩
  rw [List.take_succ_cons] at hmt'
  have hpunct : isPunctB ch = false := toLower_h_not_punct ch hch
  obtain ⟨l'', hl''⟩ := rstripPunct_cons ch (tl.take k) hpunct
  subst hmt'
  constructor
  · intro he
    have : u.data = [] := by rw [he]
    rw [hu] at this
    simp only at this
    rw [hl''] at this
    exact List.noConfusion this
  · intro c hc
    rw [hu] at hc
    exact rstripPunct_getLast _ c hc

/-- **C7** (amended).  The extractor's output is a list of distinct raw
reference strings (deduplicated on the raw stripped match, without
decoding), grouped by pattern in pattern order rather than first-seen text
order; every element is nonempty and carries no trailing `.,;:!?)`
punctuation. -/
theorem c7_amended (t : String) :
    (extract_media_urls_from_text t).Nodup ∧
    ∀ u ∈ extract_media_urls_from_text t,
      u ≠ "" ∧ ∀ c, u.data.getLast? = some c → isPunctB c = false := by
  constructor
  · unfold extract_media_urls_from_text
    split
    · exact List.nodup_nil
    · simp only [List.foldl_cons, List.foldl_nil]
      exact foldl_addCandidate_nodup _ _
        (foldl_addCandidate_nodup _ _
          (foldl_addCandidate_nodup _ _
            (foldl_addCandidate_nodup _ _ List.nodup_nil)))
  · intro u hu
    unfold extract_media_urls_from_text at hu
    by_cases ht : t = ""
    · rw [if_pos ht] at hu
      exact absurd hu (List.not_mem_nil u)
    · rw [if_neg ht] at hu
      simp only [List.foldl_cons, List.foldl_nil] at hu
      rcases foldl_addCandidate_mem _ _ _ hu with hu3 | ⟨mt, hmt, hmtu⟩
      · rcases foldl_addCandidate_mem _ _ _ hu3 with hu2 | ⟨mt, hmt, hmtu⟩
        · rcases foldl_addCandidate_mem _ _ _ hu2 with hu1 | ⟨mt, hmt, hmtu⟩
          · rcases foldl_addCandidate_mem _ _ _ hu1 with hu0 | ⟨mt, hmt, hmtu⟩
            · exact absurd hu0 (List.not_mem_nil u)
            · exact stripped_match_spec t matchP1 matchP1_spec mt hmt u hmtu
          · exact stripped_match_spec t matchP2 matchP2_spec mt hmt u hmtu
        · exact stripped_match_spec t matchP3 matchP3_spec mt hmt u hmtu
      · exact stripped_match_spec t matchP4 matchP4_spec mt hmt u hmtu

/-- Witness for `c7_amended` at a concrete input. -/
theorem c7_amended_witness :
    (extract_media_urls_from_text "see https://i.redd.it/x.jpg!").Nodup ∧
    ("https://i.redd.it/x.jpg" ∈
        extract_media_urls_from_text "see https://i.redd.it/x.jpg!" ∧
      "https://i.redd.it/x.jpg" ≠ "" ∧
      ∀ c, ("https://i.redd.it/x.jpg" : String).data.getLast? = some c →
        isPunctB c = false) :=
  ⟨(c7_amended "see https://i.redd.it/x.jpg!").1,
   by decide,
   (c7_amended "see https://i.redd.it/x.jpg!").2 "https://i.redd.it/x.jpg" (by decide)⟩

/-- Witness for `c8_amended` at concrete inputs. -/
theorem c8_amended_witness :
    alookup (load_posts [RawPost.mk "p1" "ab", RawPost.mk "p2" "e", RawPost.mk "p1" "cd"]) "p1" =
      firstLongest ([RawPost.mk "p1" "ab", RawPost.mk "p2" "e",
        RawPost.mk "p1" "cd"].filter (fun p => p.name = "p1")) :=
  c8_amended.1 [RawPost.mk "p1" "ab", RawPost.mk "p2" "e", RawPost.mk "p1" "cd"] "p1"
    (by decide)

/-! # C4/C5: the media downloader -/

/-- The given URL is already materialized in this state: cached in the
shared map under either form, or present as a non-empty file at its
content-addressed path. -/
def cachedOrOnDisk (st : DLState) (u d : String) : Prop :=
  (∃ p, alookup st.map (unescape u) = some p) ∨
  (∃ p, alookup st.map u = some p) ∨
  (∃ n, 0 < n ∧ st.fs (get_local_path_for_url u d) = some n)

theorem downloadBatchGo_cons (net : String → Nat → Option Nat) (d : String)
    (st : DLState) (u : String) (rest : List String) :
    downloadBatchGo net d st (u :: rest) =
      ((u, (download_media net u d st).1) ::
         (downloadBatchGo net d (download_media net u d st).2 rest).1,
       (downloadBatchGo net d (download_media net u d st).2 rest).2) := rfl

theorem download_media_cached (net : String → Nat → Option Nat) (u d : String)
    (st : DLState) (h : cachedOrOnDisk st u d) :
    (∃ p, (download_media net u d st).1 = some p) ∧
    (download_media net u d st).2.log = st.log ∧
    (download_media net u d st).2.fs = st.fs ∧
    (∀ k v, alookup st.map k = some v →
      alookup (download_media net u d st).2.map k = some v) := by
  unfold download_media
  dsimp only
  cases h1 : alookup st.map (unescape u) with
  | some p => exact ⟨⟨p, rfl⟩, rfl, rfl, fun k v hv => hv⟩
  | none =>
    dsimp only
    cases h2 : alookup st.map u with
    | some p => exact ⟨⟨p, rfl⟩, rfl, rfl, fun k v hv => hv⟩
    | none =>
      dsimp only
      rcases h with ⟨p, hp⟩ | ⟨p, hp⟩ | ⟨n, hn, hfs⟩
      · rw [h1] at hp
        exact Option.noConfusion hp
      · rw [h2] at hp
        exact Option.noConfusion hp
      · rw [hfs]
        dsimp only
        rw [if_pos hn]
        refine ⟨⟨_, rfl⟩, rfl, rfl, ?_⟩
        intro k v hv
        have hku : k ≠ u := fun he => by rw [he, h2] at hv; exact Option.noConfusion hv
        have hkd : k ≠ unescape u := fun he => by
          rw [he, h1] at hv; exact Option.noConfusion hv
        rw [alookup_aset_ne _ _ _ _ hku, alookup_aset_ne _ _ _ _ hkd]
        exact hv

theorem batchGo_cached (net : String → Nat → Option Nat) (d : String) :
    ∀ (L : List String) (st : DLState),
      (∀ u ∈ L, cachedOrOnDisk st u d) →
      (downloadBatchGo net d st L).2.log = st.log ∧
      (downloadBatchGo net d st L).2.fs = st.fs ∧
      ∀ u ∈ L, ∃ p, alookup (downloadBatchGo net d st L).1 u = some (some p) := by
  intro L
  induction L with
  | nil => exact fun st _ => ⟨rfl, rfl, fun u hu => absurd hu (List.not_mem_nil u)⟩
  | cons v rest ih =>
    intro st h
    obtain ⟨⟨p, hp⟩, hlog, hfs, hmap⟩ :=
      download_media_cached net v d st (h v (List.mem_cons_self v rest))
    have hrest : ∀ u ∈ rest, cachedOrOnDisk (download_media net v d st).2 u d := by
      intro u hu
      rcases h u (List.mem_cons_of_mem v hu) with ⟨q, hq⟩ | ⟨q, hq⟩ | ⟨n, hn, hq⟩
      · exact Or.inl ⟨q, hmap _ _ hq⟩
      · exact Or.inr (Or.inl ⟨q, hmap _ _ hq⟩)
      · exact Or.inr (Or.inr ⟨n, hn, by rw [hfs]; exact hq⟩)
    obtain ⟨hlog', hfs', hres⟩ := ih (download_media net v d st).2 hrest
    rw [downloadBatchGo_cons]
    refine ⟨by rw [hlog', hlog], by rw [hfs', hfs], ?_⟩
    intro u hu
    by_cases huv : u = v
    · subst huv
      exact ⟨p, by simp [alookup, hp]⟩
    · rcases List.mem_cons.mp hu with he | hu'
      · exact absurd he huv
      · obtain ⟨q, hq⟩ := hres u hu'
        have hvu : v ≠ u := fun he => huv he.symm
        exact ⟨q, by simp only [alookup, if_neg hvu]; exact hq⟩

theorem mem_foldl_dedup (u : String) :
    ∀ (l acc : List String),
      (u ∈ l.foldl (fun acc v => if v ∈ acc then acc else acc ++ [v]) acc) ↔
        u ∈ acc ∨ u ∈ l := by
  intro l
  induction l with
  | nil => intro acc; simp
  | cons v rest ih =>
    intro acc
    rw [List.foldl_cons, ih]
    by_cases hv : v ∈ acc
    · rw [if_pos hv]
      constructor
      · rintro (h | h)
        · exact Or.inl h
        · exact Or.inr (List.mem_cons_of_mem v h)
      · rintro (h | h)
        · exact Or.inl h
        · rcases List.mem_cons.mp h with rfl | h'
          · exact Or.inl hv
          · exact Or.inr h'
    · rw [if_neg hv]
      constructor
      · rintro (h | h)
        · rcases List.mem_append.mp h with h' | h'
          · exact Or.inl h'
          · exact Or.inr (List.mem_cons.mpr (Or.inl (List.mem_singleton.mp h')))
        · exact Or.inr (List.mem_cons_of_mem v h)
      · rintro (h | h)
        · exact Or.inl (List.mem_append.mpr (Or.inl h))
        · rcases List.mem_cons.mp h with rfl | h'
          · exact Or.inl (List.mem_append.mpr (Or.inr (List.mem_singleton.mpr rfl)))
          · exact Or.inr h'

theorem mem_dedupKeepFirst (l : List String) (u : String) :
    u ∈ dedupKeepFirst l ↔ u ∈ l := by
  unfold dedupKeepFirst
  rw [mem_foldl_dedup]
  simp

/-- **C4** (confirmed).  A URL whose content-addressed path already holds a
non-empty file is recorded in the shared map under both its raw and decoded
forms and returned without any network request (the request log is
untouched); consequently a batch run in which every URL's asset already
exists with non-zero size issues zero network calls and resolves every URL
to a present path. -/
theorem c4_existing_file_short_circuits :
    (∀ (net : String → Nat → Option Nat) (url d : String) (st : DLState) (n : Nat),
        alookup st.map (unescape url) = none →
        alookup st.map url = none →
        st.fs (get_local_path_for_url url d) = some n →
        0 < n →
        (download_media net url d st).1 = some (get_local_path_for_url url d) ∧
        (download_media net url d st).2.log = st.log ∧
        (download_media net url d st).2.fs = st.fs ∧
        alookup (download_media net url d st).2.map url =
          some (get_local_path_for_url url d) ∧
        alookup (download_media net url d st).2.map (unescape url) =
          some (get_local_path_for_url url d)) ∧
    (∀ (net : String → Nat → Option Nat) (urls : List String) (d : String) (st : DLState),
        (∀ u ∈ urls, ∃ n, 0 < n ∧ st.fs (get_local_path_for_url u d) = some n) →
        (download_media_batch net urls d st).2.log = st.log ∧
        ∀ u ∈ urls, ∃ p,
          alookup (download_media_batch net urls d st).1 u = some (some p)) := by
  constructor
  · intro net url d st n h1 h2 hfs hn
    unfold download_media
    dsimp only
    rw [h1]
    dsimp only
    rw [h2]
    dsimp only
    rw [hfs]
    dsimp only
    rw [if_pos hn]
    refine ⟨rfl, rfl, rfl, ?_, ?_⟩
    · exact alookup_aset_eq _ _ _
    · by_cases hud : unescape url = url
      · rw [hud]
        exact alookup_aset_eq _ _ _
      · rw [alookup_aset_ne _ _ _ _ hud]
        exact alookup_aset_eq _ _ _
  · intro net urls d st h
    have hded : ∀ u ∈ dedupKeepFirst urls, cachedOrOnDisk st u d := by
      intro u hu
      obtain ⟨n, hn, hfs⟩ := h u ((mem_dedupKeepFirst urls u).mp hu)
      exact Or.inr (Or.inr ⟨n, hn, hfs⟩)
    obtain ⟨hlog, _, hres⟩ := batchGo_cached net d (dedupKeepFirst urls) st hded
    exact ⟨hlog, fun u hu => hres u ((mem_dedupKeepFirst urls u).mpr hu)⟩

/-- Witness for `c4_existing_file_short_circuits`: a state whose filesystem
already holds a 5-byte file at the URL's content-addressed path. -/
theorem c4_witness :
    (download_media (fun _ _ => none) "https://a.io/x.jpg" "media"
        ⟨[], fun q => if q = get_local_path_for_url "https://a.io/x.jpg" "media"
          then some 5 else none, []⟩).1 =
      some (get_local_path_for_url "https://a.io/x.jpg" "media") ∧
    (download_media (fun _ _ => none) "https://a.io/x.jpg" "media"
        ⟨[], fun q => if q = get_local_path_for_url "https://a.io/x.jpg" "media"
          then some 5 else none, []⟩).2.log = [] := by
  have h := (c4_existing_file_short_circuits.1 (fun _ _ => none) "https://a.io/x.jpg"
    "media"
    ⟨[], fun q => if q = get_local_path_for_url "https://a.io/x.jpg" "media"
      then some 5 else none, []⟩ 5
    rfl rfl (by simp) (by omega))
  exact ⟨h.1, h.2.1⟩

/-- The invariant that keeps the failing URL `bad` unresolved while the
batch runs: neither of its forms is cached, its content-addressed file does
not exist, and every existing file is non-empty (files are only recorded
after a positive size check). -/
def C5Inv (st : DLState) (bad d : String) : Prop :=
  alookup st.map bad = none ∧
  alookup st.map (unescape bad) = none ∧
  st.fs (get_local_path_for_url bad d) = none ∧
  ∀ p n, st.fs p = some n → 0 < n

theorem downloadAttempts_fail (net : String → Nat → Option Nat)
    (u dec lp : String) (st : DLState)
    (h0 : net dec 0 = none) (h1 : net dec 1 = none) :
    downloadAttempts net u dec lp st =
      (none, ⟨st.map, st.fs, st.log ++ [(dec, 0)] ++ [(dec, 1)]⟩) := by
  unfold downloadAttempts
  dsimp only
  rw [h0]
  dsimp only
  unfold downloadAttempt2
  dsimp only
  rw [h1]

theorem downloadAttempts_success (net : String → Nat → Option Nat)
    (u dec lp : String) (st : DLState) (n : Nat)
    (hnet : net dec 0 = some n) (hn : 0 < n) :
    downloadAttempts net u dec lp st =
      (some lp, ⟨aset (aset st.map dec lp) u lp, fsUpdate st.fs lp (some n),
        st.log ++ [(dec, 0)]⟩) := by
  unfold downloadAttempts
  dsimp only
  rw [hnet]
  dsimp only
  rw [if_pos hn]

theorem download_media_bad (net : String → Nat → Option Nat) (bad d : String)
    (st : DLState) (hI : C5Inv st bad d)
    (hf0 : net (unescape bad) 0 = none) (hf1 : net (unescape bad) 1 = none) :
    (download_media net bad d st).1 = none ∧
    (download_media net bad d st).2.map = st.map ∧
    (download_media net bad d st).2.fs = st.fs := by
  obtain ⟨h1, h2, h3, _⟩ := hI
  unfold download_media
  dsimp only
  rw [h2]
  dsimp only
  rw [h1]
  dsimp only
  rw [h3]
  dsimp only
  rw [downloadAttempts_fail net bad (unescape bad) _ st hf0 hf1]
  exact ⟨rfl, rfl, rfl⟩

theorem download_media_good (net : String → Nat → Option Nat) (u bad d : String)
    (st : DLState) (hI : C5Inv st bad d)
    (hgood : ∃ n, 0 < n ∧ net (unescape u) 0 = some n)
    (hiso1 : unescape u ≠ bad) (hiso2 : unescape u ≠ unescape bad)
    (hiso3 : u ≠ bad) (hiso4 : u ≠ unescape bad)
    (hpath : get_local_path_for_url u d ≠ get_local_path_for_url bad d) :
    (∃ p, (download_media net u d st).1 = some p) ∧
    C5Inv (download_media net u d st).2 bad d := by
  obtain ⟨h1, h2, h3, h4⟩ := hI
  have hmap : ∀ (m : List (String × String)) (lp : String),
      alookup m bad = none → alookup m (unescape bad) = none →
      alookup (aset (aset m (unescape u) lp) u lp) bad = none ∧
      alookup (aset (aset m (unescape u) lp) u lp) (unescape bad) = none := by
    intro m lp hb hd
    constructor
    · rw [alookup_aset_ne _ _ _ _ (fun he => hiso3 he.symm),
        alookup_aset_ne _ _ _ _ (fun he => hiso1 he.symm)]
      exact hb
    · rw [alookup_aset_ne _ _ _ _ (fun he => hiso4 he.symm),
        alookup_aset_ne _ _ _ _ (fun he => hiso2 he.symm)]
      exact hd
  unfold download_media
  dsimp only
  cases hc1 : alookup st.map (unescape u) with
  | some p => exact ⟨⟨p, rfl⟩, h1, h2, h3, h4⟩
  | none =>
    dsimp only
    cases hc2 : alookup st.map u with
    | some p => exact ⟨⟨p, rfl⟩, h1, h2, h3, h4⟩
    | none =>
      dsimp only
      cases hc3 : st.fs (get_local_path_for_url u d) with
      | some sz =>
        dsimp only
        rw [if_pos (h4 _ _ hc3)]
        obtain ⟨hb, hd⟩ := hmap st.map (get_local_path_for_url u d) h1 h2
        exact ⟨⟨_, rfl⟩, hb, hd, h3, h4⟩
      | none =>
        dsimp only
        obtain ⟨n, hn, hnet⟩ := hgood
        rw [downloadAttempts_success net u (unescape u) _ st n hnet hn]
        obtain ⟨hb, hd⟩ := hmap st.map (get_local_path_for_url u d) h1 h2
        refine ⟨⟨_, rfl⟩, hb, hd, ?_, ?_⟩
        · unfold fsUpdate
          dsimp only
          rw [if_neg (fun he => hpath he.symm)]
          exact h3
        · intro p m hp
          unfold fsUpdate at hp
          dsimp only at hp
          by_cases hq : p = get_local_path_for_url u d
          · rw [if_pos hq] at hp
            cases hp
            exact hn
          · rw [if_neg hq] at hp
            exact h4 p m hp

theorem batchGo_c5 (net : String → Nat → Option Nat) (d bad : String)
    (hf0 : net (unescape bad) 0 = none) (hf1 : net (unescape bad) 1 = none) :
    ∀ (L : List String) (st : DLState),
      C5Inv st bad d →
      (∀ u ∈ L, u ≠ bad →
        (∃ n, 0 < n ∧ net (unescape u) 0 = some n) ∧
        unescape u ≠ bad ∧ unescape u ≠ unescape bad ∧ u ≠ unescape bad ∧
        get_local_path_for_url u d ≠ get_local_path_for_url bad d) →
      (bad ∈ L → alookup (downloadBatchGo net d st L).1 bad = some none) ∧
      (∀ u ∈ L, u ≠ bad →
        ∃ p, alookup (downloadBatchGo net d st L).1 u = some (some p)) ∧
      C5Inv (downloadBatchGo net d st L).2 bad d := by
  intro L
  induction L with
  | nil =>
    exact fun st hI _ =>
      ⟨fun hm => absurd hm (List.not_mem_nil bad),
       fun u hu _ => absurd hu (List.not_mem_nil u), hI⟩
  | cons v rest ih =>
    intro st hI h
    by_cases hvb : v = bad
    · rw [downloadBatchGo_cons, hvb]
      obtain ⟨hr, hm, hf⟩ := download_media_bad net bad d st hI hf0 hf1
      have hI' : C5Inv (download_media net bad d st).2 bad d := by
        obtain ⟨i1, i2, i3, i4⟩ := hI
        exact ⟨by rw [hm]; exact i1, by rw [hm]; exact i2, by rw [hf]; exact i3,
          by rw [hf]; exact i4⟩
      obtain ⟨_, hres, hIfin⟩ := ih (download_media net bad d st).2 hI'
        (fun u hu hub => h u (List.mem_cons_of_mem v hu) hub)
      refine ⟨fun _ => ?_, ?_, hIfin⟩
      · rw [hr]
        simp [alookup]
      · intro u hu hub
        obtain ⟨p, hp⟩ := hres u (by
          rcases List.mem_cons.mp hu with he | h'
          · exact absurd he hub
          · exact h') hub
        have hbu : bad ≠ u := fun he => hub he.symm
        exact ⟨p, by simp only [alookup, if_neg hbu]; exact hp⟩
    · obtain ⟨hg, hi1, hi2, hi4, hp5⟩ := h v (List.mem_cons_self v rest) hvb
      obtain ⟨⟨p, hp⟩, hI'⟩ :=
        download_media_good net v bad d st hI hg hi1 hi2 hvb hi4 hp5
      obtain ⟨hbadres, hres, hIfin⟩ := ih (download_media net v d st).2 hI'
        (fun u hu hub => h u (List.mem_cons_of_mem v hu) hub)
      rw [downloadBatchGo_cons]
      refine ⟨?_, ?_, hIfin⟩
      · intro hm
        have hbr : bad ∈ rest := by
          rcases List.mem_cons.mp hm with he | h'
          · exact absurd he.symm hvb
          · exact h'
        rw [show alookup ((v, (download_media net v d st).1) ::
              (downloadBatchGo net d (download_media net v d st).2 rest).1) bad =
            alookup (downloadBatchGo net d (download_media net v d st).2 rest).1 bad
          from by simp only [alookup, if_neg hvb]]
        exact hbadres hbr
      · intro u hu hub
        by_cases huv : u = v
        · subst huv
          exact ⟨p, by simp [alookup, hp]⟩
        · obtain ⟨q, hq⟩ := hres u (by
            rcases List.mem_cons.mp hu with he | h'
            · exact absurd he huv
            · exact h') hub
          have hvu : v ≠ u := fun he => huv he.symm
          exact ⟨q, by simp only [alookup, if_neg hvu]; exact hq⟩

/-- **C5** (confirmed).  In a fresh run, a URL that fails on both attempts
resolves to absent (`none`) in the results mapping, nothing is recorded for
it in the shared URL→local-path map, and its failure does not affect any
other URL: with the other URLs succeeding (and independent of the failing
one), each resolves to a present path — for 10 URLs with exactly one
always-failing, 9 present and 1 absent. -/
theorem c5_failure_isolated (net : String → Nat → Option Nat) (urls : List String)
    (bad d : String) (st : DLState)
    (hmem : bad ∈ urls)
    (hf0 : net (unescape bad) 0 = none) (hf1 : net (unescape bad) 1 = none)
    (hgood : ∀ u ∈ urls, u ≠ bad → ∃ n, 0 < n ∧ net (unescape u) 0 = some n)
    (hiso : ∀ u ∈ urls, u ≠ bad →
      unescape u ≠ bad ∧ unescape u ≠ unescape bad ∧ u ≠ unescape bad ∧
      get_local_path_for_url u d ≠ get_local_path_for_url bad d)
    (hmap : st.map = []) (hfs : st.fs = fun _ => none) :
    alookup (download_media_batch net urls d st).1 bad = some none ∧
    (∀ u ∈ urls, u ≠ bad →
      ∃ p, alookup (download_media_batch net urls d st).1 u = some (some p)) ∧
    alookup (download_media_batch net urls d st).2.map bad = none ∧
    alookup (download_media_batch net urls d st).2.map (unescape bad) = none := by
  have hI : C5Inv st bad d := by
    refine ⟨by rw [hmap]; rfl, by rw [hmap]; rfl, by rw [hfs], ?_⟩
    intro p n hp
    rw [hfs] at hp
    exact Option.noConfusion hp
  obtain ⟨hbad, hres, hIfin⟩ := batchGo_c5 net d bad hf0 hf1 (dedupKeepFirst urls) st hI
    (fun u hu hub =>
      ⟨hgood u ((mem_dedupKeepFirst urls u).mp hu) hub,
       hiso u ((mem_dedupKeepFirst urls u).mp hu) hub⟩)
  exact ⟨hbad ((mem_dedupKeepFirst urls bad).mpr hmem),
    fun u hu hub => hres u ((mem_dedupKeepFirst urls u).mpr hu) hub,
    hIfin.1, hIfin.2.1⟩

/-! ## Distinct extensions give distinct content-addressed paths -/

theorem hexDigitChar_ne_slash (n : Nat) : hexDigitChar n ≠ '/' := by
  unfold hexDigitChar
  split <;> decide

theorem md5Bytes_cons (m : List Nat) : ∃ b rest, md5Bytes m = b :: rest :=
  ⟨_, _, rfl⟩

theorem foldr_hex_length (l : List Nat) :
    (l.foldr (fun b acc => byteToHexChars b ++ acc) []).length = 2 * l.length := by
  induction l with
  | nil => rfl
  | cons b bs ih =>
    rw [List.foldr_cons, List.length_append, ih]
    have hb : (byteToHexChars b).length = 2 := rfl
    rw [hb, List.length_cons]
    omega

theorem md5Bytes_length (m : List Nat) : (md5Bytes m).length = 16 := by
  unfold md5Bytes word32ToLEBytes
  simp

theorem md5hex16_length (s : String) : (md5hex16 s).data.length = 16 := by
  show (((md5Bytes (utf8Encode s.data)).take 8).foldr
    (fun b acc => byteToHexChars b ++ acc) []).length = 16
  rw [foldr_hex_length, List.length_take, md5Bytes_length]
  decide

theorem md5hex16_head (s : String) :
    ∃ c cs, (md5hex16 s).data = c :: cs ∧ c ≠ '/' := by
  obtain ⟨b, rest, hb⟩ := md5Bytes_cons (utf8Encode s.data)
  have hdata : (md5hex16 s).data =
      hexDigitChar (b / 16 % 16) :: hexDigitChar (b % 16) ::
        (rest.take 7).foldr (fun b acc => byteToHexChars b ++ acc) [] := by
    show ((md5Bytes (utf8Encode s.data)).take 8).foldr
      (fun b acc => byteToHexChars b ++ acc) [] = _
    rw [hb]
    rfl
  exact ⟨_, _, hdata, hexDigitChar_ne_slash _⟩

theorem ospJoin_inj (d b1 b2 : String) (h1 : b1.data.head? ≠ some '/')
    (h2 : b2.data.head? ≠ some '/') (he : ospJoin d b1 = ospJoin d b2) : b1 = b2 := by
  unfold ospJoin at he
  rw [if_neg h1, if_neg h2] at he
  by_cases hd : d = ""
  · rw [if_pos hd, if_pos hd] at he
    exact he
  · rw [if_neg hd, if_neg hd] at he
    by_cases hsl : d.data.getLast? = some '/'
    · rw [if_pos hsl, if_pos hsl] at he
      have hdata := congrArg String.data he
      rw [String.data_append, String.data_append] at hdata
      exact String.ext (List.append_cancel_left hdata)
    · rw [if_neg hsl, if_neg hsl] at he
      have hdata := congrArg String.data he
      rw [String.data_append, String.data_append, String.data_append,
        String.data_append, List.append_assoc, List.append_assoc] at hdata
      exact String.ext
        (List.append_cancel_left (List.append_cancel_left hdata))

theorem get_local_path_ext_eq (u1 u2 d : String)
    (he : get_local_path_for_url u1 d = get_local_path_for_url u2 d) :
    extFor u1 = extFor u2 := by
  unfold get_local_path_for_url at he
  obtain ⟨c1, cs1, hd1, hc1⟩ := md5hex16_head (unescape u1)
  obtain ⟨c2, cs2, hd2, hc2⟩ := md5hex16_head (unescape u2)
  have hh1 : (md5hex16 (unescape u1) ++ extFor u1).data.head? ≠ some '/' := by
    rw [String.data_append, hd1]
    intro hh
    simp only [List.cons_append, List.head?_cons, Option.some.injEq] at hh
    exact hc1 hh
  have hh2 : (md5hex16 (unescape u2) ++ extFor u2).data.head? ≠ some '/' := by
    rw [String.data_append, hd2]
    intro hh
    simp only [List.cons_append, List.head?_cons, Option.some.injEq] at hh
    exact hc2 hh
  have hb := ospJoin_inj d _ _ hh1 hh2 he
  have hdata := congrArg String.data hb
  rw [String.data_append, String.data_append] at hdata
  have hlen : (md5hex16 (unescape u1)).data.length =
      (md5hex16 (unescape u2)).data.length := by
    rw [md5hex16_length, md5hex16_length]
  exact String.ext (List.append_inj_right hdata hlen)

theorem get_local_path_ne_of_ext_ne (u1 u2 d : String) (h : extFor u1 ≠ extFor u2) :
    get_local_path_for_url u1 d ≠ get_local_path_for_url u2 d :=
  fun he => h (get_local_path_ext_eq u1 u2 d he)

def c5urls : List String :=
  ["https://img.example/p1.jpg", "https://img.example/p2.jpg",
   "https://img.example/p3.jpg", "https://img.example/p4.jpg",
   "https://img.example/p5.jpg", "https://img.example/p6.jpg",
   "https://img.example/p7.jpg", "https://img.example/p8.jpg",
   "https://img.example/p9.jpg", "https://bad.example/video.mp4"]

def c5net : String → Nat → Option Nat :=
  fun s _ => if s = "https://bad.example/video.mp4" then none else some 1

/-- Witness for `c5_failure_isolated`: ten URLs, one always failing; the
failing one resolves to absent and is not recorded, another resolves to a
present path. -/
theorem c5_witness :
    alookup (download_media_batch c5net c5urls "media" ⟨[], fun _ => none, []⟩).1
      "https://bad.example/video.mp4" = some none ∧
    (∃ p, alookup (download_media_batch c5net c5urls "media" ⟨[], fun _ => none, []⟩).1
      "https://img.example/p1.jpg" = some (some p)) ∧
    alookup (download_media_batch c5net c5urls "media" ⟨[], fun _ => none, []⟩).2.map
      "https://bad.example/video.mp4" = none := by
  have h := c5_failure_isolated c5net c5urls "https://bad.example/video.mp4" "media"
    ⟨[], fun _ => none, []⟩
    (by decide) (by decide) (by decide)
    (by
      intro u hu hub
      fin_cases hu
      case _ => exact ⟨1, Nat.one_pos, by decide⟩
      case _ => exact ⟨1, Nat.one_pos, by decide⟩
      case _ => exact ⟨1, Nat.one_pos, by decide⟩
      case _ => exact ⟨1, Nat.one_pos, by decide⟩
      case _ => exact ⟨1, Nat.one_pos, by decide⟩
      case _ => exact ⟨1, Nat.one_pos, by decide⟩
      case _ => exact ⟨1, Nat.one_pos, by decide⟩
      case _ => exact ⟨1, Nat.one_pos, by decide⟩
      case _ => exact ⟨1, Nat.one_pos, by decide⟩
      case _ => exact absurd rfl hub)
    (by
      intro u hu hub
      fin_cases hu
      case _ => exact ⟨by decide, by decide, by decide,
        get_local_path_ne_of_ext_ne _ _ _ (by decide)⟩
      case _ => exact ⟨by decide, by decide, by decide,
        get_local_path_ne_of_ext_ne _ _ _ (by decide)⟩
      case _ => exact ⟨by decide, by decide, by decide,
        get_local_path_ne_of_ext_ne _ _ _ (by decide)⟩
      case _ => exact ⟨by decide, by decide, by decide,
        get_local_path_ne_of_ext_ne _ _ _ (by decide)⟩
      case _ => exact ⟨by decide, by decide, by decide,
        get_local_path_ne_of_ext_ne _ _ _ (by decide)⟩
      case _ => exact ⟨by decide, by decide, by decide,
        get_local_path_ne_of_ext_ne _ _ _ (by decide)⟩
      case _ => exact ⟨by decide, by decide, by decide,
        get_local_path_ne_of_ext_ne _ _ _ (by decide)⟩
      case _ => exact ⟨by decide, by decide, by decide,
        get_local_path_ne_of_ext_ne _ _ _ (by decide)⟩
      case _ => exact ⟨by decide, by decide, by decide,
        get_local_path_ne_of_ext_ne _ _ _ (by decide)⟩
      case _ => exact absurd rfl hub)
    rfl rfl
  exact ⟨h.1, h.2.1 "https://img.example/p1.jpg" (by decide) (by decide), h.2.2.1⟩

/-! # C2/C3/C9: the comment-tree merger -/

theorem withReplies_id (c : Comment) (rs : List Comment) :
    (c.withReplies rs).id = c.id := by cases c; rfl

theorem withReplies_author (c : Comment) (rs : List Comment) :
    (c.withReplies rs).author = c.author := by cases c; rfl

theorem withReplies_body (c : Comment) (rs : List Comment) :
    (c.withReplies rs).body = c.body := by cases c; rfl

theorem withReplies_score (c : Comment) (rs : List Comment) :
    (c.withReplies rs).score = c.score := by cases c; rfl

theorem withReplies_createdAt (c : Comment) (rs : List Comment) :
    (c.withReplies rs).createdAt = c.createdAt := by cases c; rfl

theorem withReplies_replies (c : Comment) (rs : List Comment) :
    (c.withReplies rs).replies = rs := by cases c; rfl

theorem sizeComment_eq (i a b : String) (s t : Int) (rs : List Comment) :
    sizeComment (.mk i a b s t rs) = 1 + sizeForest rs := by
  rw [sizeComment]

theorem sizeForest_nil : sizeForest [] = 0 := by rw [sizeForest]

theorem sizeForest_cons (c : Comment) (cs : List Comment) :
    sizeForest (c :: cs) = sizeComment c + sizeForest cs := by
  rw [sizeForest]

theorem sizeComment_replies (c : Comment) :
    sizeComment c = 1 + sizeForest c.replies := by
  cases c
  rw [sizeComment_eq]
  rfl

theorem sizeComment_pos (c : Comment) : 1 ≤ sizeComment c := by
  rw [sizeComment_replies]
  omega

theorem sizeForest_eq_zero {l : List Comment} (h : sizeForest l = 0) : l = [] := by
  cases l with
  | nil => rfl
  | cons c cs =>
    rw [sizeForest_cons] at h
    have := sizeComment_pos c
    omega

theorem sizeForest_cons_pos (c : Comment) (cs : List Comment) :
    1 ≤ sizeForest (c :: cs) := by
  rw [sizeForest_cons]
  have := sizeComment_pos c
  omega

theorem sizeComment_le_of_mem {x : Comment} {l : List Comment} (h : x ∈ l) :
    sizeComment x ≤ sizeForest l := by
  induction l with
  | nil => exact absurd h (List.not_mem_nil x)
  | cons c cs ih =>
    rw [sizeForest_cons]
    rcases List.mem_cons.mp h with rfl | h'
    · omega
    · have := ih h'
      omega

/-- Lookup (first match) by id, exposing only the comment. -/
def idLookup (i : String) : List Comment → Option Comment
  | [] => none
  | c :: cs => if c.id = i then some c else idLookup i cs

theorem idLookup_eq_findWithIdx (i : String) (l : List Comment) :
    idLookup i l = (findWithIdx i l).map (·.2) := by
  induction l with
  | nil => rfl
  | cons c cs ih =>
    by_cases h : c.id = i
    · simp [idLookup, findWithIdx, h]
    · simp only [idLookup, findWithIdx, if_neg h, ih]
      cases findWithIdx i cs <;> rfl

theorem idLookup_mem (i : String) (l : List Comment) (c : Comment)
    (h : idLookup i l = some c) : c ∈ l := by
  induction l with
  | nil => exact absurd h (by simp [idLookup])
  | cons x xs ih =>
    by_cases hx : x.id = i
    · rw [idLookup, if_pos hx] at h
      simp only [Option.some.injEq] at h
      rw [← h]
      exact List.mem_cons_self x xs
    · rw [idLookup, if_neg hx] at h
      exact List.mem_cons_of_mem x (ih h)

theorem idLookup_of_mem_nodup (l : List Comment) (c : Comment)
    (hnd : (l.map Comment.id).Nodup) (hm : c ∈ l) : idLookup c.id l = some c := by
  induction l with
  | nil => exact absurd hm (List.not_mem_nil c)
  | cons x xs ih =>
    rcases List.mem_cons.mp hm with rfl | hm'
    · rw [idLookup, if_pos rfl]
    · have hx : x.id ≠ c.id := by
        rw [List.map_cons, List.nodup_cons] at hnd
        intro he
        exact hnd.1 (he ▸ List.mem_map_of_mem Comment.id hm')
      rw [idLookup, if_neg hx]
      exact ih (by rw [List.map_cons, List.nodup_cons] at hnd; exact hnd.2) hm'

theorem idLookup_append (i : String) (l1 l2 : List Comment) :
    idLookup i (l1 ++ l2) =
      match idLookup i l1 with
      | some c => some c
      | none => idLookup i l2 := by
  induction l1 with
  | nil => rfl
  | cons x xs ih =>
    by_cases hx : x.id = i
    · simp [idLookup, hx]
    · simp [idLookup, hx, ih]

theorem findWithIdx_none_iff (i : String) (l : List Comment) :
    findWithIdx i l = none ↔ i ∉ l.map Comment.id := by
  induction l with
  | nil => simp [findWithIdx]
  | cons c cs ih =>
    by_cases h : c.id = i
    · simp [findWithIdx, h]
    · simp only [findWithIdx, if_neg h, List.map_cons, List.mem_cons]
      cases hf : findWithIdx i cs with
      | none =>
        rw [hf] at ih
        simp only [Option.map_none']
        constructor
        · intro _ hmem
          rcases hmem with he | hmem'
          · exact h he.symm
          · exact (ih.mp rfl) hmem'
        · intro _
          trivial
      | some p =>
        rw [hf] at ih
        simp only [Option.map_some']
        constructor
        · intro hh
          exact Option.noConfusion hh
        · intro hh
          exfalso
          apply hh
          right
          by_contra hni
          exact Option.noConfusion (ih.mpr hni)

theorem findWithIdx_some_decomp (i : String) :
    ∀ (l : List Comment) (j : Nat) (c : Comment),
      findWithIdx i l = some (j, c) →
      ∃ xs ys, l = xs ++ c :: ys ∧ xs.length = j ∧
        i ∉ xs.map Comment.id ∧ c.id = i := by
  intro l
  induction l with
  | nil => intro j c h; exact absurd h (by simp [findWithIdx])
  | cons x xs ih =>
    intro j c h
    by_cases hx : x.id = i
    · rw [findWithIdx, if_pos hx] at h
      simp only [Option.some.injEq, Prod.mk.injEq] at h
      obtain ⟨hj, hc⟩ := h
      exact ⟨[], xs, by simp [hc], by simp [← hj], by simp, by rw [← hc]; exact hx⟩
    · rw [findWithIdx, if_neg hx] at h
      cases hf : findWithIdx i xs with
      | none => rw [hf] at h; exact absurd h (by simp)
      | some p =>
        obtain ⟨j', c'⟩ := p
        rw [hf] at h
        simp only [Option.map_some', Option.some.injEq, Prod.mk.injEq] at h
        obtain ⟨hj, hc⟩ := h
        obtain ⟨xs1, ys1, hdec, hlen, hni, hcid⟩ := ih j' c' hf
        subst hc
        refine ⟨x :: xs1, ys1, by rw [hdec]; rfl, by simp [hlen, hj], ?_, hcid⟩
        simp only [List.map_cons, List.mem_cons]
        intro hmem
        rcases hmem with he | hmem'
        · exact hx he.symm
        · exact hni hmem'

theorem set_len_append (xs : List Comment) (c x : Comment) (ys : List Comment) :
    (xs ++ c :: ys).set xs.length x = xs ++ x :: ys := by
  induction xs with
  | nil => rfl
  | cons a as ih => simp [List.set, ih]

theorem idLookup_set_mid (i : String) (xs ys : List Comment) (c x : Comment)
    (hc : c.id ≠ i) (hx : x.id ≠ i) :
    idLookup i (xs ++ x :: ys) = idLookup i (xs ++ c :: ys) := by
  rw [idLookup_append, idLookup_append]
  cases idLookup i xs with
  | some q => rfl
  | none => simp [idLookup, hc, hx]

theorem mergeIntoF_nil (fuel : Nat) (acc : List Comment) :
    mergeIntoF fuel acc [] = acc := by
  cases fuel <;> rfl

theorem mergeIntoF_cons (fuel : Nat) (acc : List Comment) (r2 : Comment)
    (rest : List Comment) :
    mergeIntoF (fuel + 1) acc (r2 :: rest) =
      mergeIntoF fuel (mergeStep fuel acc r2) rest := rfl

theorem mergeStep_found (fuel : Nat) (acc : List Comment) (r2 : Comment)
    (j : Nat) (c1 : Comment) (h : findWithIdx r2.id acc = some (j, c1)) :
    mergeStep fuel acc r2 =
      acc.set j ((if preferSecond c1 r2 then r2 else c1).withReplies
        (sortComments (mergeIntoF fuel (pyDictOf c1.replies) r2.replies))) := by
  unfold mergeStep
  rw [h]

theorem mergeStep_new (fuel : Nat) (acc : List Comment) (r2 : Comment)
    (h : findWithIdx r2.id acc = none) :
    mergeStep fuel acc r2 = acc ++ [r2] := by
  unfold mergeStep
  rw [h]

theorem winner_id (c1 r2 : Comment) (h : c1.id = r2.id) :
    (if preferSecond c1 r2 then r2 else c1).id = r2.id := by
  split
  · rfl
  · exact h

theorem idLookup_mergeStep_ne (fuel : Nat) (acc : List Comment) (r2 : Comment)
    (i : String) (hne : r2.id ≠ i) :
    idLookup i (mergeStep fuel acc r2) = idLookup i acc := by
  cases hf : findWithIdx r2.id acc with
  | none =>
    rw [mergeStep_new fuel acc r2 hf, idLookup_append]
    cases h2 : idLookup i acc with
    | some q => rfl
    | none => simp [idLookup, hne]
  | some p =>
    obtain ⟨j, c1⟩ := p
    obtain ⟨xs, ys, hdec, hlen, _, hc1id⟩ := findWithIdx_some_decomp r2.id acc j c1 hf
    rw [mergeStep_found fuel acc r2 j c1 hf, hdec, ← hlen, set_len_append]
    refine idLookup_set_mid i xs ys c1 _ (fun he => hne (hc1id ▸ he)) ?_
    rw [withReplies_id, winner_id c1 r2 hc1id]
    exact hne

theorem ids_set_same (l : List Comment) (j : Nat) (x c : Comment)
    (hdec : ∃ xs ys, l = xs ++ c :: ys ∧ xs.length = j) (hid : x.id = c.id) :
    (l.set j x).map Comment.id = l.map Comment.id := by
  obtain ⟨xs, ys, rfl, hlen⟩ := hdec
  rw [← hlen, set_len_append]
  simp [hid]

theorem nodup_mergeStep (fuel : Nat) (acc : List Comment) (r2 : Comment)
    (h : (acc.map Comment.id).Nodup) :
    ((mergeStep fuel acc r2).map Comment.id).Nodup := by
  cases hf : findWithIdx r2.id acc with
  | none =>
    rw [mergeStep_new fuel acc r2 hf]
    have hni := (findWithIdx_none_iff r2.id acc).mp hf
    simp only [List.map_append, List.map_cons, List.map_nil]
    rw [List.nodup_append]
    exact ⟨h, List.nodup_singleton _, by simpa using hni⟩
  | some p =>
    obtain ⟨j, c1⟩ := p
    obtain ⟨xs, ys, hdec, hlen, _, hc1id⟩ := findWithIdx_some_decomp r2.id acc j c1 hf
    rw [mergeStep_found fuel acc r2 j c1 hf,
      ids_set_same acc j _ c1 ⟨xs, ys, hdec, hlen⟩
        (by rw [withReplies_id, winner_id c1 r2 hc1id, hc1id])]
    exact h

theorem idLookup_mergeIntoF_not_mem :
    ∀ (l2 : List Comment) (fuel : Nat) (acc : List Comment) (i : String),
      i ∉ l2.map Comment.id →
      idLookup i (mergeIntoF fuel acc l2) = idLookup i acc := by
  intro l2
  induction l2 with
  | nil => intro fuel acc i _; rw [mergeIntoF_nil]
  | cons r2 rest ih =>
    intro fuel acc i hni
    cases fuel with
    | zero => rfl
    | succ k =>
      rw [mergeIntoF_cons]
      rw [ih k _ i (fun hh => hni (List.mem_cons_of_mem _ hh))]
      exact idLookup_mergeStep_ne k acc r2 i
        (fun he => hni (List.mem_cons.mpr (Or.inl he.symm)))

theorem mergeIntoF_fuel_congr :
    ∀ (f1 f2 : Nat) (acc l2 : List Comment),
      sizeForest l2 ≤ f1 → sizeForest l2 ≤ f2 →
      mergeIntoF f1 acc l2 = mergeIntoF f2 acc l2 := by
  intro f1
  induction f1 with
  | zero =>
    intro f2 acc l2 h1 _
    have hl : l2 = [] := sizeForest_eq_zero (Nat.le_zero.mp h1)
    subst hl
    rw [mergeIntoF_nil, mergeIntoF_nil]
  | succ k ih =>
    intro f2 acc l2 h1 h2
    cases l2 with
    | nil => rw [mergeIntoF_nil, mergeIntoF_nil]
    | cons r2 rest =>
      have hpos := sizeForest_cons_pos r2 rest
      obtain ⟨g, rfl⟩ : ∃ g, f2 = g + 1 := ⟨f2 - 1, by omega⟩
      rw [mergeIntoF_cons, mergeIntoF_cons]
      have hsz : sizeForest r2.replies + 1 + sizeForest rest ≤ k + 1 := by
        rw [sizeForest_cons, sizeComment_replies r2] at h1
        omega
      have hsz2 : sizeForest r2.replies + 1 + sizeForest rest ≤ g + 1 := by
        rw [sizeForest_cons, sizeComment_replies r2] at h2
        omega
      have hstep : mergeStep k acc r2 = mergeStep g acc r2 := by
        cases hf : findWithIdx r2.id acc with
        | none => rw [mergeStep_new k acc r2 hf, mergeStep_new g acc r2 hf]
        | some p =>
          obtain ⟨j, c1⟩ := p
          rw [mergeStep_found k acc r2 j c1 hf, mergeStep_found g acc r2 j c1 hf,
            ih g (pyDictOf c1.replies) r2.replies (by omega) (by omega)]
      rw [hstep]
      exact ih g _ rest (by omega) (by omega)

theorem mergeIntoF_inner_canonical (fuel : Nat) (c1r l2r : List Comment)
    (h : sizeForest l2r ≤ fuel) :
    sortComments (mergeIntoF fuel (pyDictOf c1r) l2r) = merge_comment_replies c1r l2r := by
  unfold merge_comment_replies
  rw [mergeIntoF_fuel_congr fuel (sizeForest l2r) (pyDictOf c1r) l2r h (Nat.le_refl _)]

theorem pyDictInsert_not_mem (acc : List Comment) (c : Comment)
    (h : c.id ∉ acc.map Comment.id) : pyDictInsert acc c = acc ++ [c] := by
  unfold pyDictInsert
  rw [(findWithIdx_none_iff c.id acc).mpr h]

theorem pyDictOf_nodup_aux :
    ∀ (l acc : List Comment), (((acc ++ l).map Comment.id)).Nodup →
      l.foldl pyDictInsert acc = acc ++ l := by
  intro l
  induction l with
  | nil => intro acc _; simp
  | cons c cs ih =>
    intro acc hnd
    have hni : c.id ∉ acc.map Comment.id := by
      rw [List.map_append, List.nodup_append] at hnd
      intro hmem
      exact hnd.2.2 hmem (by simp)
    rw [List.foldl_cons, pyDictInsert_not_mem acc c hni]
    have := ih (acc ++ [c]) (by simpa using hnd)
    rw [this]
    simp

theorem pyDictOf_nodup (l : List Comment) (h : (l.map Comment.id).Nodup) :
    pyDictOf l = l := by
  unfold pyDictOf
  have := pyDictOf_nodup_aux l [] (by simpa using h)
  simpa using this

/-- The merged node for an id present on both sides: `c1` the accumulated
entry, `c2` the entry from the second list (lines 376–390). -/
def mergedNode (c1 c2 : Comment) : Comment :=
  (if preferSecond c1 c2 then c2 else c1).withReplies
    (merge_comment_replies c1.replies c2.replies)

theorem idLookup_append_some_head (xs : List Comment) (n : Comment)
    (ys : List Comment) (i : String) (hxs : i ∉ xs.map Comment.id)
    (hn : n.id = i) : idLookup i (xs ++ n :: ys) = some n := by
  rw [idLookup_append]
  have hx : idLookup i xs = none := by
    induction xs with
    | nil => rfl
    | cons a as ih =>
      have ha : a.id ≠ i := by
        intro he
        exact hxs (by rw [List.map_cons]; exact List.mem_cons.mpr (Or.inl he.symm))
      rw [idLookup, if_neg ha]
      exact ih (fun hmm =>
        hxs (by rw [List.map_cons]; exact List.mem_cons.mpr (Or.inr hmm)))
  simp only [hx]
  rw [idLookup, if_pos hn]

theorem idLookup_mergeIntoF_main :
    ∀ (l2 : List Comment) (fuel : Nat) (acc : List Comment) (c1 c2 : Comment),
      sizeForest l2 ≤ fuel → (l2.map Comment.id).Nodup → c2 ∈ l2 →
      idLookup c2.id acc = some c1 →
      idLookup c2.id (mergeIntoF fuel acc l2) = some (mergedNode c1 c2) := by
  intro l2
  induction l2 with
  | nil => intro fuel acc c1 c2 _ _ hm _; exact absurd hm (List.not_mem_nil c2)
  | cons r2 rest ih =>
    intro fuel acc c1 c2 hsz hnd hm hl
    have hpos := sizeForest_cons_pos r2 rest
    obtain ⟨g, rfl⟩ : ∃ g, fuel = g + 1 := ⟨fuel - 1, by omega⟩
    rw [sizeForest_cons, sizeComment_replies r2] at hsz
    rw [mergeIntoF_cons]
    rw [List.map_cons, List.nodup_cons] at hnd
    rcases List.mem_cons.mp hm with rfl | hm'
    · have hfind : ∃ j, findWithIdx c2.id acc = some (j, c1) := by
        have he := idLookup_eq_findWithIdx c2.id acc
        rw [hl] at he
        cases hf : findWithIdx c2.id acc with
        | none => rw [hf] at he; exact Option.noConfusion he
        | some p =>
          obtain ⟨j, c⟩ := p
          rw [hf, Option.map_some'] at he
          simp only [Option.some.injEq] at he
          exact ⟨j, by rw [he]⟩
      obtain ⟨j, hf⟩ := hfind
      obtain ⟨xs, ys, hdec, hlen, hni, hc1id⟩ := findWithIdx_some_decomp c2.id acc j c1 hf
      have hstep := mergeStep_found g acc c2 j c1 hf
      rw [mergeIntoF_inner_canonical g c1.replies c2.replies (by omega)] at hstep
      rw [hstep, hdec, ← hlen, set_len_append]
      rw [idLookup_mergeIntoF_not_mem rest g _ c2.id hnd.1]
      show idLookup c2.id (xs ++ mergedNode c1 c2 :: ys) = some (mergedNode c1 c2)
      exact idLookup_append_some_head xs _ ys c2.id hni
        (by rw [mergedNode, withReplies_id, winner_id c1 c2 hc1id])
    · have hne : r2.id ≠ c2.id := by
        intro he
        apply hnd.1
        rw [he]
        exact List.mem_map_of_mem Comment.id hm'
      apply ih g (mergeStep g acc r2) c1 c2 (by omega) hnd.2 hm'
      rw [idLookup_mergeStep_ne g acc r2 c2.id hne]
      exact hl

theorem mergedNode_id (c1 c2 : Comment) (h : c1.id = c2.id) :
    (mergedNode c1 c2).id = c2.id := by
  rw [mergedNode, withReplies_id, winner_id c1 c2 h]

theorem bodyMissingB_true_of (c : Comment) (h : c.body = "" ∨ c.body = "[unavailable]") :
    bodyMissingB c = true := by
  rcases h with h | h <;> simp [bodyMissingB, h]

theorem bodyMissingB_false_of (c : Comment)
    (h1 : c.body ≠ "") (h2 : c.body ≠ "[unavailable]") : bodyMissingB c = false := by
  simp [bodyMissingB, h1, h2]

/-- C2. For an id present in both inputs of `merge_comment_replies`
(each input having distinct ids, as Python dict-built reply lists do), the
output contains a node with that id whose replies are always the recursive
merge of the two reply lists; when the first side's body is missing or the
`"[unavailable]"` sentinel and the second side's is a real body, the node
carries the second side's scalar fields, and when the first side's body is
real the node carries the first side's scalar fields (lines 368–392). -/
theorem c2_merge_body_and_replies (l1 l2 : List Comment) (c1 c2 : Comment)
    (h1 : (l1.map Comment.id).Nodup) (h2 : (l2.map Comment.id).Nodup)
    (hm1 : c1 ∈ l1) (hm2 : c2 ∈ l2) (hid : c1.id = c2.id) :
    ∃ c ∈ merge_comment_replies l1 l2,
      c.id = c2.id ∧
      c.replies = merge_comment_replies c1.replies c2.replies ∧
      (((c1.body = "" ∨ c1.body = "[unavailable]") ∧
          c2.body ≠ "" ∧ c2.body ≠ "[unavailable]") →
        c.author = c2.author ∧ c.body = c2.body ∧ c.score = c2.score ∧
          c.createdAt = c2.createdAt) ∧
      (¬(c1.body = "" ∨ c1.body = "[unavailable]") →
        c.author = c1.author ∧ c.body = c1.body ∧ c.score = c1.score ∧
          c.createdAt = c1.createdAt) := by
  refine ⟨mergedNode c1 c2, ?_, mergedNode_id c1 c2 hid, ?_, ?_, ?_⟩
  · have hlook : idLookup c2.id l1 = some c1 := by
      rw [← hid]
      exact idLookup_of_mem_nodup l1 c1 h1 hm1
    have hmain := idLookup_mergeIntoF_main l2 (sizeForest l2) (pyDictOf l1) c1 c2
      (Nat.le_refl _) h2 hm2 (by rw [pyDictOf_nodup l1 h1]; exact hlook)
    have hmem := idLookup_mem c2.id _ _ hmain
    unfold merge_comment_replies sortComments
    exact (List.Perm.mem_iff (List.perm_insertionSort commentKeyGE _)).mpr hmem
  · rw [mergedNode, withReplies_replies]
  · intro hcond
    have hps : preferSecond c1 c2 = true := by
      rw [preferSecond, bodyMissingB_true_of c1 hcond.1,
        bodyMissingB_false_of c2 hcond.2.1 hcond.2.2]
      rfl
    rw [mergedNode, hps, if_pos rfl]
    exact ⟨withReplies_author c2 _, withReplies_body c2 _,
      withReplies_score c2 _, withReplies_createdAt c2 _⟩
  · intro hncond
    push_neg at hncond
    have hps : preferSecond c1 c2 = false := by
      rw [preferSecond, bodyMissingB_false_of c1 hncond.1 hncond.2]
      rfl
    rw [mergedNode, hps]
    simp only [Bool.false_eq_true, if_false]
    exact ⟨withReplies_author c1 _, withReplies_body c1 _,
      withReplies_score c1 _, withReplies_createdAt c1 _⟩

def cwA : Comment := .mk "a" "u1" "[unavailable]" 1 10 []

def cwB : Comment := .mk "a" "u2" "hello" 7 20 []

/-- C2 witness: merging the singleton lists `[cwA]` and `[cwB]` (same id,
first body the sentinel, second a real body). -/
theorem c2_witness :
    ∃ c ∈ merge_comment_replies [cwA] [cwB],
      c.id = cwB.id ∧
      c.replies = merge_comment_replies cwA.replies cwB.replies ∧
      (((cwA.body = "" ∨ cwA.body = "[unavailable]") ∧
          cwB.body ≠ "" ∧ cwB.body ≠ "[unavailable]") →
        c.author = cwB.author ∧ c.body = cwB.body ∧ c.score = cwB.score ∧
          c.createdAt = cwB.createdAt) ∧
      (¬(cwA.body = "" ∨ cwA.body = "[unavailable]") →
        c.author = cwA.author ∧ c.body = cwA.body ∧ c.score = cwA.score ∧
          c.createdAt = cwA.createdAt) :=
  c2_merge_body_and_replies [cwA] [cwB] cwA cwB (by decide) (by decide)
    (List.mem_cons_self cwA []) (List.mem_cons_self cwB []) rfl

/-- C3 counterexample: `merge_comment_trees` (lines 395–416) does NOT sort
the top level — the Python loop mutates `merged_tree` (a dict in insertion
order) and returns it without the `sorted(...)` call that
`merge_comment_replies` ends with — so two top-level comments stay in
first-tree-then-second order even when the second has the higher score. -/
theorem c3_counterexample :
    merge_comment_trees [Comment.mk "a" "u" "x" 1 0 []] [Comment.mk "b" "u" "x" 5 0 []] =
      [Comment.mk "a" "u" "x" 1 0 [], Comment.mk "b" "u" "x" 5 0 []] ∧
    (Comment.mk "a" "u" "x" 1 0 ([] : List Comment)).score <
      (Comment.mk "b" "u" "x" 5 0 ([] : List Comment)).score := by
  exact ⟨rfl, by decide⟩

/-- C3 amended: every list produced by `merge_comment_replies` — i.e. every
merged reply list below the top level — is sorted by score descending then
createdAt descending (the claim's (5,100),(5,200),(-1,300) example comes
out as (5,200),(5,100),(-1,300)); the top-level list returned by
`merge_comment_trees` is exempt (see the counterexample). -/
theorem c3_amended :
    (∀ l1 l2 : List Comment,
      List.Sorted commentKeyGE (merge_comment_replies l1 l2)) ∧
    merge_comment_replies
        [Comment.mk "c1" "u" "x" 5 100 [], Comment.mk "c2" "u" "x" 5 200 [],
          Comment.mk "c3" "u" "x" (-1) 300 []] [] =
      [Comment.mk "c2" "u" "x" 5 200 [], Comment.mk "c1" "u" "x" 5 100 [],
        Comment.mk "c3" "u" "x" (-1) 300 []] := by
  constructor
  · intro l1 l2
    unfold merge_comment_replies sortComments
    exact List.sorted_insertionSort commentKeyGE _
  · unfold merge_comment_replies
    rw [mergeIntoF_nil]
    rfl

theorem resortF_nil (f : Nat) : resortF f [] = [] := by
  cases f <;> rfl

theorem resortF_succ (f : Nat) (l : List Comment) :
    resortF (f + 1) l =
      sortComments (l.map (fun c => c.withReplies (resortF f c.replies))) := rfl

theorem resortF_congr :
    ∀ (f1 f2 : Nat) (l : List Comment),
      sizeForest l ≤ f1 → sizeForest l ≤ f2 → resortF f1 l = resortF f2 l := by
  intro f1
  induction f1 with
  | zero =>
    intro f2 l h1 _
    have hl := sizeForest_eq_zero (Nat.le_zero.mp h1)
    subst hl
    rw [resortF_nil, resortF_nil]
  | succ k ih =>
    intro f2 l h1 h2
    cases l with
    | nil => rw [resortF_nil, resortF_nil]
    | cons c cs =>
      have hpos := sizeForest_cons_pos c cs
      obtain ⟨g, rfl⟩ : ∃ g, f2 = g + 1 := ⟨f2 - 1, by omega⟩
      rw [resortF_succ, resortF_succ]
      congr 1
      apply List.map_congr_left
      intro x hx
      have hxs := sizeComment_le_of_mem hx
      rw [sizeComment_replies x, sizeForest_cons, sizeComment_replies c] at hxs
      rw [sizeForest_cons, sizeComment_replies c] at h1 h2
      rw [ih g x.replies (by omega) (by omega)]

theorem ids_map_resortNode (l : List Comment) :
    (l.map resortNode).map Comment.id = l.map Comment.id := by
  rw [List.map_map]
  apply List.map_congr_left
  intro x _
  simp only [Function.comp_apply, resortNode]
  exact withReplies_id x _

theorem findWithIdx_append_left_none (i : String) :
    ∀ (xs l : List Comment), i ∉ xs.map Comment.id →
      findWithIdx i (xs ++ l) =
        (findWithIdx i l).map (fun p => (p.1 + xs.length, p.2)) := by
  intro xs
  induction xs with
  | nil =>
    intro l _
    simp only [List.nil_append, List.length_nil]
    cases findWithIdx i l with
    | none => rfl
    | some p => simp
  | cons x xs ih =>
    intro l hni
    have hx : x.id ≠ i := fun he =>
      hni (by rw [List.map_cons]; exact List.mem_cons.mpr (Or.inl he.symm))
    rw [List.cons_append, findWithIdx, if_neg hx,
      ih l (fun hm => hni (by rw [List.map_cons]; exact List.mem_cons.mpr (Or.inr hm)))]
    cases findWithIdx i l with
    | none => rfl
    | some p =>
      simp only [Option.map_some', List.length_cons, Option.some.injEq, Prod.mk.injEq]
      exact ⟨by omega, trivial⟩

theorem findWithIdx_append_self (r : Comment) (xs rest : List Comment)
    (h : r.id ∉ xs.map Comment.id) :
    findWithIdx r.id (xs ++ r :: rest) = some (xs.length, r) := by
  rw [findWithIdx_append_left_none r.id xs (r :: rest) h, findWithIdx, if_pos rfl]
  simp

theorem treeStep_found (acc : List Comment) (c2 : Comment) (j : Nat) (c1 : Comment)
    (h : findWithIdx c2.id acc = some (j, c1)) :
    treeStep acc c2 = acc.set j ((if preferSecond c1 c2 then c2 else c1).withReplies
      (merge_comment_replies c1.replies c2.replies)) := by
  unfold treeStep
  rw [h]

theorem not_mem_ids_left_of_nodup (done : List Comment) (r : Comment)
    (rest : List Comment)
    (h : ((done ++ r :: rest).map Comment.id).Nodup) : r.id ∉ done.map Comment.id := by
  rw [List.map_append, List.nodup_append] at h
  intro hmem
  exact h.2.2 hmem (by simp)

theorem mergeIntoF_self :
    ∀ (todo done : List Comment) (fuel : Nat),
      sizeForest todo ≤ fuel →
      ((done ++ todo).map Comment.id).Nodup →
      (∀ r ∈ todo, merge_comment_replies r.replies r.replies = resortReplies r.replies) →
      mergeIntoF fuel (done.map resortNode ++ todo) todo =
        (done ++ todo).map resortNode := by
  intro todo
  induction todo with
  | nil =>
    intro done fuel _ _ _
    rw [mergeIntoF_nil]
    simp
  | cons r rest ih =>
    intro done fuel hsz hnd H
    have hpos := sizeForest_cons_pos r rest
    obtain ⟨k, rfl⟩ : ∃ k, fuel = k + 1 := ⟨fuel - 1, by omega⟩
    rw [sizeForest_cons, sizeComment_replies r] at hsz
    rw [mergeIntoF_cons]
    have hnotin : r.id ∉ (done.map resortNode).map Comment.id := by
      rw [ids_map_resortNode]
      exact not_mem_ids_left_of_nodup done r rest hnd
    have hfind := findWithIdx_append_self r (done.map resortNode) rest hnotin
    have hstep := mergeStep_found k (done.map resortNode ++ r :: rest) r
      (done.map resortNode).length r hfind
    rw [ite_self, mergeIntoF_inner_canonical k r.replies r.replies (by omega),
      H r (List.mem_cons_self r rest), set_len_append] at hstep
    rw [hstep]
    have hre : done.map resortNode ++ r.withReplies (resortReplies r.replies) :: rest =
        (done ++ [r]).map resortNode ++ rest := by
      simp [List.map_append, resortNode]
    rw [hre]
    rw [ih (done ++ [r]) k (by omega)
      (by rw [List.append_assoc]; exact hnd)
      (fun x hx => H x (List.mem_cons_of_mem r hx))]
    rw [List.append_assoc]
    rfl

theorem foldl_treeStep_self :
    ∀ (todo done : List Comment),
      ((done ++ todo).map Comment.id).Nodup →
      (∀ r ∈ todo, merge_comment_replies r.replies r.replies = resortReplies r.replies) →
      todo.foldl treeStep (done.map resortNode ++ todo) =
        (done ++ todo).map resortNode := by
  intro todo
  induction todo with
  | nil =>
    intro done _ _
    simp
  | cons r rest ih =>
    intro done hnd H
    rw [List.foldl_cons]
    have hnotin : r.id ∉ (done.map resortNode).map Comment.id := by
      rw [ids_map_resortNode]
      exact not_mem_ids_left_of_nodup done r rest hnd
    have hfind := findWithIdx_append_self r (done.map resortNode) rest hnotin
    have hstep := treeStep_found (done.map resortNode ++ r :: rest) r
      (done.map resortNode).length r hfind
    rw [ite_self, H r (List.mem_cons_self r rest), set_len_append] at hstep
    rw [hstep]
    have hre : done.map resortNode ++ r.withReplies (resortReplies r.replies) :: rest =
        (done ++ [r]).map resortNode ++ rest := by
      simp [List.map_append, resortNode]
    rw [hre]
    rw [ih (done ++ [r])
      (by rw [List.append_assoc]; exact hnd)
      (fun x hx => H x (List.mem_cons_of_mem r hx))]
    rw [List.append_assoc]
    rfl

theorem merge_self_canonical :
    ∀ (n : Nat) (l : List Comment), sizeForest l ≤ n →
      (l.map Comment.id).Nodup → (∀ c ∈ l, WFC c) →
      merge_comment_replies l l = resortReplies l := by
  intro n
  induction n with
  | zero =>
    intro l hsz _ _
    have hl := sizeForest_eq_zero (Nat.le_zero.mp hsz)
    subst hl
    unfold merge_comment_replies resortReplies
    rw [mergeIntoF_nil, resortF_nil]
    rfl
  | succ m ih =>
    intro l hsz hnd hwf
    have H : ∀ c ∈ l, merge_comment_replies c.replies c.replies = resortReplies c.replies := by
      intro c hc
      have hle := sizeComment_le_of_mem hc
      rw [sizeComment_replies c] at hle
      cases hwf c hc with
      | mk i a b s t rs hn hr =>
        have hle' : 1 + sizeForest rs ≤ sizeForest l := hle
        exact ih rs (by omega) hn hr
    unfold merge_comment_replies
    rw [pyDictOf_nodup l hnd]
    have hml := mergeIntoF_self l [] (sizeForest l) (Nat.le_refl _) (by simpa using hnd) H
    simp only [List.map_nil, List.nil_append] at hml
    rw [hml]
    cases l with
    | nil =>
      unfold resortReplies
      rw [resortF_nil]
      rfl
    | cons c0 cs =>
      have hpos := sizeForest_cons_pos c0 cs
      obtain ⟨k, hk⟩ : ∃ k, sizeForest (c0 :: cs) = k + 1 :=
        ⟨sizeForest (c0 :: cs) - 1, by omega⟩
      unfold resortReplies
      rw [hk, resortF_succ]
      congr 1
      apply List.map_congr_left
      intro x hx
      simp only [resortNode]
      congr 1
      unfold resortReplies
      have hxle := sizeComment_le_of_mem hx
      rw [sizeComment_replies x, hk] at hxle
      exact resortF_congr (sizeForest x.replies) k x.replies (Nat.le_refl _) (by omega)

/-- C9. Merging a well-formed comment tree with itself (ids distinct at
every level, as dict-built trees are) is a no-op up to recursively
re-sorting the reply lists: `merge_comment_trees T T` maps each node of `T`
in place to the same node with re-sorted reply subtree — in particular the
id list (hence the id set, per-level and overall) is unchanged. -/
theorem c9_self_merge (T : List Comment)
    (h1 : (T.map Comment.id).Nodup) (h2 : ∀ c ∈ T, WFC c) :
    merge_comment_trees T T = T.map resortNode ∧
    (merge_comment_trees T T).map Comment.id = T.map Comment.id := by
  have H : ∀ c ∈ T, merge_comment_replies c.replies c.replies = resortReplies c.replies := by
    intro c hc
    cases h2 c hc with
    | mk i a b s t rs hn hr =>
      exact merge_self_canonical (sizeForest rs) rs (Nat.le_refl _) hn hr
  have hmain := foldl_treeStep_self T [] (by simpa using h1) H
  simp only [List.map_nil, List.nil_append] at hmain
  unfold merge_comment_trees
  refine ⟨hmain, ?_⟩
  rw [hmain, ids_map_resortNode]

def c9T : List Comment :=
  [.mk "p" "u" "b" 3 1 [.mk "q" "u" "b" 1 5 [], .mk "r" "u" "b" 2 4 []],
    .mk "s" "u" "b" 9 9 []]

/-- C9 witness: a two-node tree whose first node has two replies out of
sort order. -/
theorem c9_witness :
    merge_comment_trees c9T c9T = c9T.map resortNode ∧
    (merge_comment_trees c9T c9T).map Comment.id = c9T.map Comment.id :=
  c9_self_merge c9T (by decide)
    (by
      intro c hc
      rcases List.mem_cons.mp hc with rfl | hc
      · refine WFC.mk "p" "u" "b" 3 1
          [.mk "q" "u" "b" 1 5 [], .mk "r" "u" "b" 2 4 []] (by decide) ?_
        intro d hd
        rcases List.mem_cons.mp hd with rfl | hd
        · exact WFC.mk "q" "u" "b" 1 5 [] (by decide)
            (fun e he => absurd he (List.not_mem_nil e))
        rcases List.mem_cons.mp hd with rfl | hd
        · exact WFC.mk "r" "u" "b" 2 4 [] (by decide)
            (fun e he => absurd he (List.not_mem_nil e))
        · exact absurd hd (List.not_mem_nil d)
      rcases List.mem_cons.mp hc with rfl | hc
      · exact WFC.mk "s" "u" "b" 9 9 [] (by decide)
          (fun e he => absurd he (List.not_mem_nil e))
      · exact absurd hc (List.not_mem_nil c))

end JsonlToHtml
